import Mathlib

/-!
Verification of the voter-model simulation engine
(`voter_model` and `logseries_distribution` from `code/voter_model.py`).

The Python source is shallowly embedded here:

* machine integers become `ℕ`/`ℤ`, numpy float comparisons on the speciation
  probability become exact `ℚ` comparisons, and the real-valued schedule
  computation (`np.logspace`, `np.log10`, `np.round`) is embedded over `ℝ`;
* the numpy `Generator` is modelled by a deterministic draw stream `Rng`:
  each call to `integers`/`random` consumes one position of the stream, so a
  generator "initialized from a seed" is exactly a choice of stream `g` and
  start index `idx`;
* in-place mutation of the simulation arrays becomes explicit state passing
  through `SimState`; the caller-supplied arrays (`IC`, `opinion_counts`) are
  carried unmodified in dedicated state fields (`icArg`, `countsArg`) so that
  the frame property "the function never writes to the caller's arrays" is a
  provable statement about the embedding (the source copies `IC` at line 56
  and only ever rebinds, never writes, `opinion_counts`);
* the two `return` statements of `voter_model` are distinguished by the
  `early` flag of `VMResult`, and the loop indices `k`, `k_c` at exit are
  exposed as `kOut`, `kcOut` (the number of filled richness/abundance slots).
-/

/-- Model of `numpy.random.Generator`: a deterministic stream of natural
numbers together with a cursor.  Each draw reads one stream value and
advances the cursor. -/
structure Rng where
  g : ℕ → ℕ
  idx : ℕ

/-- `rng.integers(n)`: a uniform integer in `[0, n)` (source lines 52, 84, 88, 91). -/
def Rng.integers (r : Rng) (n : ℕ) : ℕ × Rng :=
  (r.g r.idx % n, { g := r.g, idx := r.idx + 1 })

/-- `rng.random()`: a uniform float in `[0, 1)` (source line 87), modelled as a
rational with denominator `2 ^ 53` exactly as numpy produces doubles. -/
def Rng.random (r : Rng) : ℚ × Rng :=
  (((r.g r.idx % 2 ^ 53 : ℕ) : ℚ) / 2 ^ 53, { g := r.g, idx := r.idx + 1 })

/-- One elementary update (source lines 83-91): pick a focal individual `i`,
draw `u`; if `u ≥ nu` copy the opinion of a uniform peer, otherwise adopt a
uniform fresh opinion in `[0, S)`. -/
def drawStep (S J : ℕ) (nu : ℚ) (p : List ℕ × Rng) : List ℕ × Rng :=
  let q1 := p.2.integers J
  let q2 := q1.2.random
  if nu ≤ q2.1 then
    let q3 := q2.2.integers J
    (p.1.set q1.1 (p.1.getD q3.1 0), q3.2)
  else
    let q3 := q2.2.integers S
    (p.1.set q1.1 q3.1, q3.2)

/-- The population and generator after `t` elementary updates, starting from
initial opinions `ic` and generator `r`. -/
def opinionsAfter (S J : ℕ) (nu : ℚ) (ic : List ℕ) (r : Rng) : ℕ → List ℕ × Rng
  | 0 => (ic, r)
  | t + 1 => drawStep S J nu (opinionsAfter S J nu ic r t)

/-- `rng.integers(0, S, size=J)` (source line 52): `J` uniform draws in `[0, S)`. -/
def drawList (r : Rng) (S : ℕ) : ℕ → List ℕ × Rng
  | 0 => ([], r)
  | j + 1 =>
    let q := r.integers S
    let rest := drawList q.2 S j
    (q.1 :: rest.1, rest.2)

/-- Tally of opinions into a length-`S` count vector: the `zeros(S)` plus
`Counter` fill of source lines 59-62 and 104-107 (for labels inside `[0, S)`
both compute the number of occurrences of each label `o < S`). -/
def tallyZ (S : ℕ) (ops : List ℕ) : List ℤ :=
  (List.range S).map fun o => (ops.count o : ℤ)

/-- The run-wide configuration consumed by the simulation loop. -/
structure SimCfg where
  S : ℕ
  J : ℕ
  nu : ℚ
  lsteps : List ℤ
  lstepsC : List ℤ

/-- The mutable state of the simulation loop (source lines 56-80):
`opinions`, the four output arrays, the two logging indices `k`, `k_c`, the
generator, and the caller-supplied argument arrays (never written). -/
structure SimState where
  opinions : List ℕ
  richness : List ℕ
  store : List (List ℤ)
  time : List ℚ
  timeC : List ℚ
  k : ℕ
  kc : ℕ
  rng : Rng
  icArg : Option (List ℕ)
  countsArg : Option (List ℤ)

/-- The value returned by `voter_model`: the four output arrays, plus
instrumentation recording which `return` statement produced it (`early`) and
the loop indices at exit (`kOut`, `kcOut` = number of filled richness and
abundance slots), plus the caller-visible argument arrays at return time. -/
structure VMResult where
  store : List (List ℤ)
  richness : List ℕ
  time : List ℚ
  timeC : List ℚ
  early : Bool
  kOut : ℕ
  kcOut : ℕ
  icArg : Option (List ℕ)
  countsArg : Option (List ℤ)

/-- Apply the elementary update of source lines 83-91 to the state. -/
def updateStep (c : SimCfg) (s : SimState) : SimState :=
  let p := drawStep c.S c.J c.nu (s.opinions, s.rng)
  { s with opinions := p.1, rng := p.2 }

/-- The richness checkpoint (source lines 94-100): when `k < len(log_steps)`
and `t == log_steps[k-1]`, record the number of distinct labels and the
generation time, then either return early (`nu == 0` and richness `1`,
line 99: note the abundance table is returned untruncated) or advance `k`. -/
def richStep (c : SimCfg) (t : ℕ) (s : SimState) : SimState ⊕ VMResult :=
  if s.k < c.lsteps.length ∧ (t : ℤ) = c.lsteps.getD (s.k - 1) 0 then
    let r := s.opinions.dedup.length
    let rich := s.richness.set s.k r
    let tim := s.time.set s.k ((t : ℚ) / (c.J : ℚ))
    if c.nu = 0 ∧ r = 1 then
      Sum.inr { store := s.store, richness := rich.take (s.k + 1),
                time := tim.take (s.k + 1), timeC := s.timeC.take s.kc,
                early := true, kOut := s.k + 1, kcOut := s.kc,
                icArg := s.icArg, countsArg := s.countsArg }
    else
      Sum.inl { s with richness := rich, time := tim, k := s.k + 1 }
  else
    Sum.inl s

/-- The abundance checkpoint (source lines 103-110): when `k_c <
len(log_steps_count)` and `t == log_steps_count[k_c-1]`, retally the opinion
counts, store them as column `k_c`, record the generation time and advance. -/
def abundanceStep (c : SimCfg) (t : ℕ) (s : SimState) : SimState :=
  if s.kc < c.lstepsC.length ∧ (t : ℤ) = c.lstepsC.getD (s.kc - 1) 0 then
    { s with store := s.store.set s.kc (tallyZ c.S s.opinions),
             timeC := s.timeC.set s.kc ((t : ℚ) / (c.J : ℚ)),
             kc := s.kc + 1 }
  else s

/-- The trailing-slot elimination (source lines 113-115): once `k` has
reached `len(log_steps)`, if the last richness entry is still `0`, drop the
last entry of `richness` and of `time`. -/
def truncStep (c : SimCfg) (s : SimState) : SimState :=
  if s.k = c.lsteps.length ∧ s.richness.getLastD 0 = 0 then
    { s with richness := s.richness.dropLast, time := s.time.dropLast }
  else s

/-- One full iteration of the `for t` loop (source lines 82-115). -/
def stepBody (c : SimCfg) (t : ℕ) (s : SimState) : SimState ⊕ VMResult :=
  match richStep c t (updateStep c s) with
  | Sum.inr res => Sum.inr res
  | Sum.inl s1 => Sum.inl (truncStep c (abundanceStep c t s1))

/-- The final `return` of source line 117. -/
def finalize (s : SimState) : VMResult :=
  { store := s.store, richness := s.richness, time := s.time, timeC := s.timeC,
    early := false, kOut := s.k, kcOut := s.kc,
    icArg := s.icArg, countsArg := s.countsArg }

/-- The `for t in range(1, total_time + 1)` loop: `rem` iterations remain,
the current step number is `t`. -/
def loop (c : SimCfg) : ℕ → ℕ → SimState → VMResult
  | _, 0, s => finalize s
  | t, rem + 1, s =>
    match stepBody c t s with
    | Sum.inr res => res
    | Sum.inl s1 => loop c (t + 1) rem s1

/-- The state at loop entry (source lines 69-80): outputs allocated to
schedule length + 1, slot 0 holding the initial richness
(`np.sum(opinion_counts > 0)`), the initial counts column, and times `0`;
logging indices `k = k_c = 1`. -/
def initState (S : ℕ) (lsteps lstepsC : List ℤ) (p : List ℕ × Rng)
    (counts : List ℤ) (ic : Option (List ℕ)) (cts : Option (List ℤ)) : SimState :=
  { opinions := p.1,
    richness := (counts.filter fun x => 0 < x).length :: List.replicate lsteps.length 0,
    store := counts :: List.replicate lstepsC.length (List.replicate S 0),
    time := 0 :: List.replicate lsteps.length 0,
    timeC := 0 :: List.replicate lstepsC.length 0,
    k := 1, kc := 1, rng := p.2, icArg := ic, countsArg := cts }

/-- `voter_model` with the two log-step schedules supplied as arguments
(source lines 44-117 minus the schedule computation of lines 65-66):
initial-condition handling, count derivation, output allocation, initial
snapshot at slot 0, then the step loop. -/
def simulate (S J T : ℕ) (nu : ℚ) (lsteps lstepsC : List ℤ)
    (ic : Option (List ℕ)) (cts : Option (List ℤ)) (rng : Rng) : VMResult :=
  let p : List ℕ × Rng :=
    match ic with
    | none => drawList rng S J
    | some l => (l, rng)
  let counts : List ℤ :=
    match cts with
    | none => tallyZ S p.1
    | some cl => cl
  loop { S := S, J := J, nu := nu, lsteps := lsteps, lstepsC := lstepsC } 1 (T * J)
    (initState S lsteps lstepsC p counts ic cts)

/-- `np.round`: round half to even. -/
noncomputable def npRound (x : ℝ) : ℤ :=
  if x - ⌊x⌋ = 1 / 2 then (if Even ⌊x⌋ then ⌊x⌋ else ⌊x⌋ + 1) else round x

/-- `np.logspace(a, b, n)` over exact reals: `n` points whose exponents are
evenly spaced from `a` to `b` inclusive (for `n = 1`, numpy returns the
single point `10 ^ a`). -/
noncomputable def logspaceList (a b : ℝ) (n : ℕ) : List ℝ :=
  if n = 1 then [(10 : ℝ) ^ a]
  else (List.range n).map fun i : ℕ => (10 : ℝ) ^ (a + (i : ℝ) * ((b - a) / ((n : ℝ) - 1)))

/-- The log-time schedule of source lines 65-66:
`np.unique(np.round(np.logspace(log10 J, log10 (T*J), n)).astype(int))` —
round each logspace point to the nearest integer, deduplicate, sort. -/
noncomputable def log_steps (J T n : ℕ) : List ℤ :=
  (((logspaceList (Real.logb 10 J) (Real.logb 10 ((T * J : ℕ))) n).map npRound).toFinset).sort (· ≤ ·)

/-- `voter_model` (source lines 5-117): compute the two schedules, then run
the simulation. -/
noncomputable def voter_model (S J T : ℕ) (nu : ℚ) (num_log_steps num_log_steps_count : ℕ)
    (ic : Option (List ℕ)) (cts : Option (List ℤ)) (rng : Rng) : VMResult :=
  simulate S J T nu (log_steps J T num_log_steps) (log_steps J T num_log_steps_count)
    ic cts rng

/-- Unnormalised log-series weight `w(k) = -θ^k / (k * ln(1-θ))`
(source line 147). -/
noncomputable def logseriesWeight (theta : ℝ) (k : ℕ) : ℝ :=
  -(theta ^ k) / (k * Real.log (1 - theta))

/-- The normalised pmf of the truncated log-series distribution
(source lines 144-153): the weight divided by the total weight on the
support `{1, ..., m}`, and `0` outside the support. -/
noncomputable def logseriesPmfFun (theta : ℝ) (m : ℕ) (k : ℕ) : ℝ :=
  if 1 ≤ k ∧ k ≤ m then
    logseriesWeight theta k / ∑ j in Finset.Icc 1 m, logseriesWeight theta j
  else 0

open Classical in
/-- `logseries_distribution` (source lines 121-154): raises `ValueError`
(modelled by `none`) unless `0 < θ < 1`, otherwise returns the distribution
with the normalised pmf. -/
noncomputable def logseries_distribution (theta : ℝ) (m : ℕ) : Option (ℕ → ℝ) :=
  if 0 < theta ∧ theta < 1 then some (logseriesPmfFun theta m) else none

/-- A concrete deterministic draw stream (all stream values `0`), used to
instantiate runs at concrete inputs. -/
def rng0 : Rng := { g := fun _ => 0, idx := 0 }

/-- The richness snapshots the loop writes for the first `w` schedule
entries: entry `j` holds the number of distinct labels in the population
after `steps[j]` elementary updates (source line 95). -/
def richTraj (S J : ℕ) (nu : ℚ) (ic : List ℕ) (r : Rng) (steps : List ℤ) (w : ℕ) : List ℕ :=
  (List.range w).map fun j => ((opinionsAfter S J nu ic r (steps.getD j 0).toNat).1).dedup.length

/-- The generation times the loop writes for the first `w` schedule entries:
entry `j` holds `steps[j] / J` (source lines 96 and 109). -/
def timeTraj (J : ℕ) (steps : List ℤ) (w : ℕ) : List ℚ :=
  (List.range w).map fun j => ((steps.getD j 0 : ℤ) : ℚ) / (J : ℚ)

/-- The abundance snapshots the loop writes for the first `w` schedule
entries: entry `j` holds the tally of the population after `steps[j]`
elementary updates (source lines 104-108). -/
def storeTraj (S J : ℕ) (nu : ℚ) (ic : List ℕ) (r : Rng) (steps : List ℤ) (w : ℕ) :
    List (List ℤ) :=
  (List.range w).map fun j => tallyZ S ((opinionsAfter S J nu ic r (steps.getD j 0).toNat).1)

/-- The fixed data of one simulation run: parameters, schedules, initial
population `ic0`, generator state `rin` at loop entry, initial counts
`counts0` (stored at abundance slot 0) and initial richness `r0` (stored at
richness slot 0). -/
structure Ctx where
  S : ℕ
  J : ℕ
  T : ℕ
  nu : ℚ
  lsteps : List ℤ
  lstepsC : List ℤ
  ic0 : List ℕ
  rin : Rng
  counts0 : List ℤ
  r0 : ℕ

/-- The loop configuration of a run context. -/
def Ctx.cfg (X : Ctx) : SimCfg :=
  { S := X.S, J := X.J, nu := X.nu, lsteps := X.lsteps, lstepsC := X.lstepsC }

/-- Population and generator after `t` elementary updates of the run. -/
def Ctx.opAt (X : Ctx) (t : ℕ) : List ℕ × Rng :=
  opinionsAfter X.S X.J X.nu X.ic0 X.rin t

/-- Well-formedness of a run context: at least one individual, an initial
population of the right length, a positive initial richness, and the
log-step schedules as `voter_model` produces them — nonempty, strictly
increasing, with entries in `[1, J*T]`. -/
structure CtxOk (X : Ctx) : Prop where
  hJ : 1 ≤ X.J
  hic : X.ic0.length = X.J
  hr0 : 1 ≤ X.r0
  hlen : 1 ≤ X.lsteps.length
  hlenC : 1 ≤ X.lstepsC.length
  hsort : X.lsteps.Sorted (· < ·)
  hsortC : X.lstepsC.Sorted (· < ·)
  hbound : ∀ x ∈ X.lsteps, 1 ≤ x ∧ x ≤ (X.J : ℤ) * X.T
  hboundC : ∀ x ∈ X.lstepsC, 1 ≤ x ∧ x ≤ (X.J : ℤ) * X.T

/-- The loop invariant, at entry of iteration `t` (so `t - 1` elementary
updates have happened).  `w` counts the richness snapshots already written:
slots `1..w` hold the trajectory values, later slots are still zero except
that the trailing zero slot is dropped once `k` has reached the schedule
length (source lines 113-115); `wc` plays the same role for the abundance
columns, which are never truncated. -/
structure LoopInv (X : Ctx) (t : ℕ) (s : SimState) : Prop where
  ht : 1 ≤ t
  hops : s.opinions = (X.opAt (t - 1)).1
  hrng : s.rng = (X.opAt (t - 1)).2
  rich : ∃ w, s.k = w + 1 ∧ w + 1 ≤ X.lsteps.length ∧
      (∀ j, j < w → X.lsteps.getD j 0 < (t : ℤ)) ∧
      (w + 1 < X.lsteps.length → (t : ℤ) ≤ X.lsteps.getD w 0) ∧
      ((s.richness = X.r0 ::
          (richTraj X.S X.J X.nu X.ic0 X.rin X.lsteps w ++
            List.replicate (X.lsteps.length - w) 0) ∧
        s.time = 0 ::
          (timeTraj X.J X.lsteps w ++ List.replicate (X.lsteps.length - w) 0) ∧
        (w + 1 = X.lsteps.length → t = 1)) ∨
       (w + 1 = X.lsteps.length ∧
        s.richness = X.r0 :: richTraj X.S X.J X.nu X.ic0 X.rin X.lsteps w ∧
        s.time = 0 :: timeTraj X.J X.lsteps w))
  abund : ∃ wc, s.kc = wc + 1 ∧ wc + 1 ≤ X.lstepsC.length ∧
      (∀ j, j < wc → X.lstepsC.getD j 0 < (t : ℤ)) ∧
      (wc + 1 < X.lstepsC.length → (t : ℤ) ≤ X.lstepsC.getD wc 0) ∧
      s.store = X.counts0 ::
        (storeTraj X.S X.J X.nu X.ic0 X.rin X.lstepsC wc ++
          List.replicate (X.lstepsC.length - wc) (List.replicate X.S 0)) ∧
      s.timeC = 0 ::
        (timeTraj X.J X.lstepsC wc ++ List.replicate (X.lstepsC.length - wc) 0)

/-- The run context of `voter_model S J T nu n nc (some l) none rng`:
initial population `l`, derived counts, derived initial richness, and the
two log-step schedules. -/
noncomputable def vmCtx (S J T : ℕ) (nu : ℚ) (n nc : ℕ) (l : List ℕ) (rng : Rng) : Ctx :=
  { S := S, J := J, T := T, nu := nu,
    lsteps := log_steps J T n, lstepsC := log_steps J T nc,
    ic0 := l, rin := rng, counts0 := tallyZ S l,
    r0 := ((tallyZ S l).filter fun x => 0 < x).length }

/-! ## List helper lemmas -/

lemma set_append_left_length {α : Type} (l1 l2 : List α) (v : α) :
    (l1 ++ l2).set l1.length v = l1 ++ l2.set 0 v := by
  induction l1 with
  | nil => simp
  | cons a l ih => simp [ih]

lemma getLastD_append_right {α : Type} (l1 : List α) {l2 : List α} (d : α)
    (h : l2 ≠ []) : (l1 ++ l2).getLastD d = l2.getLastD d := by
  rw [List.getLastD_eq_getLast?, List.getLastD_eq_getLast?,
    List.getLast?_append_of_ne_nil l1 h]

lemma getLastD_replicate {α : Type} (m : ℕ) (x d : α) :
    (List.replicate (m + 1) x).getLastD d = x := by
  induction m with
  | zero => rfl
  | succ n ih => simpa [List.replicate_succ] using ih

lemma getLastD_cons_mem {α : Type} : ∀ (l : List α) (a d : α),
    (a :: l).getLastD d ∈ a :: l
  | [], a, d => by simp
  | b :: m, a, d => by
    rw [List.getLastD_cons]
    exact List.mem_cons_of_mem a (getLastD_cons_mem m b a)

/-! ## Schedule lemmas: `npRound`, `logspaceList`, `log_steps` -/

lemma npRound_intCast (n : ℤ) : npRound ((n : ℤ) : ℝ) = n := by
  simp [npRound, Int.floor_intCast]

/-- Rounding keeps a real between two integer bounds between those bounds. -/
lemma npRound_bounds {x : ℝ} {lo hi : ℤ} (hlo : (lo : ℝ) ≤ x) (hhi : x ≤ (hi : ℝ)) :
    lo ≤ npRound x ∧ npRound x ≤ hi := by
  have hfl : lo ≤ ⌊x⌋ := Int.le_floor.mpr hlo
  have hfh : ⌊x⌋ ≤ hi := by
    have := Int.floor_mono hhi
    simpa using this
  unfold npRound
  split
  · rename_i hhalf
    have hx_gt : (⌊x⌋ : ℝ) < x := by
      have : (0 : ℝ) < 1 / 2 := by norm_num
      linarith [hhalf]
    have hsucc : ⌊x⌋ + 1 ≤ hi := by
      by_contra hc
      push_neg at hc
      have : hi ≤ ⌊x⌋ := by omega
      have : (hi : ℝ) ≤ (⌊x⌋ : ℝ) := by exact_mod_cast this
      linarith
    split
    · exact ⟨hfl, hfh⟩
    · exact ⟨by omega, hsucc⟩
  · constructor
    · rw [round_eq, Int.le_floor]
      have : (0:ℝ) ≤ 1 / 2 := by norm_num
      linarith
    · rw [round_eq]
      have hlt : x + 1 / 2 < ((hi + 1 : ℤ) : ℝ) := by push_cast; linarith
      have := Int.floor_lt.mpr hlt
      omega

lemma logspaceList_length (a b : ℝ) (n : ℕ) : (logspaceList a b n).length = n := by
  unfold logspaceList
  split
  · rename_i h; simp [h]
  · simp

lemma logspaceList_mem_bounds {a b : ℝ} (hab : a ≤ b) {n : ℕ} {x : ℝ}
    (hx : x ∈ logspaceList a b n) : (10 : ℝ) ^ a ≤ x ∧ x ≤ (10 : ℝ) ^ b := by
  have h10 : (1 : ℝ) < 10 := by norm_num
  unfold logspaceList at hx
  split at hx
  · simp only [List.mem_singleton] at hx
    subst hx
    exact ⟨le_refl _, (Real.rpow_le_rpow_left_iff h10).mpr hab⟩
  · rename_i hn1
    simp only [List.mem_map, List.mem_range] at hx
    obtain ⟨i, hi, rfl⟩ := hx
    have hn2 : 2 ≤ n := by
      rcases n with _ | n
      · omega
      · rcases n with _ | n
        · exact absurd rfl hn1
        · omega
    have hden : (0 : ℝ) < (n : ℝ) - 1 := by
      have : (2 : ℝ) ≤ (n : ℝ) := by exact_mod_cast hn2
      linarith
    have hdelta : 0 ≤ (b - a) / ((n : ℝ) - 1) := div_nonneg (by linarith) (le_of_lt hden)
    have hexp_lo : a ≤ a + i * ((b - a) / ((n : ℝ) - 1)) := by
      have h0 : (0 : ℝ) ≤ (i : ℝ) := Nat.cast_nonneg i
      nlinarith
    have hexp_hi : a + i * ((b - a) / ((n : ℝ) - 1)) ≤ b := by
      have hi' : (i : ℝ) ≤ (n : ℝ) - 1 := by
        have : (i : ℝ) + 1 ≤ (n : ℝ) := by exact_mod_cast hi
        linarith
      have hmul : (i : ℝ) * ((b - a) / ((n : ℝ) - 1)) ≤
          ((n : ℝ) - 1) * ((b - a) / ((n : ℝ) - 1)) :=
        mul_le_mul_of_nonneg_right hi' hdelta
      have heq : ((n : ℝ) - 1) * ((b - a) / ((n : ℝ) - 1)) = b - a := by
        field_simp
      linarith
    exact ⟨(Real.rpow_le_rpow_left_iff h10).mpr hexp_lo,
           (Real.rpow_le_rpow_left_iff h10).mpr hexp_hi⟩

lemma log_steps_sorted (J T n : ℕ) : (log_steps J T n).Sorted (· < ·) :=
  Finset.sort_sorted_lt _

lemma log_steps_length_le (J T n : ℕ) : (log_steps J T n).length ≤ n := by
  unfold log_steps
  rw [Finset.length_sort]
  calc ((logspaceList (Real.logb 10 J) (Real.logb 10 ((T * J : ℕ))) n).map npRound).toFinset.card
      ≤ ((logspaceList (Real.logb 10 J) (Real.logb 10 ((T * J : ℕ))) n).map npRound).length :=
        List.toFinset_card_le _
    _ = n := by rw [List.length_map, logspaceList_length]

lemma log_steps_mem_bounds {J T : ℕ} (n : ℕ) (hJ : 1 ≤ J) (hT : 1 ≤ T) :
    ∀ x ∈ log_steps J T n, (J : ℤ) ≤ x ∧ x ≤ (J : ℤ) * T := by
  intro x hx
  unfold log_steps at hx
  rw [Finset.mem_sort, List.mem_toFinset, List.mem_map] at hx
  obtain ⟨y, hy, rfl⟩ := hx
  have hJR : (0 : ℝ) < (J : ℝ) := by
    have : 0 < J := hJ
    exact_mod_cast this
  have hTJR : (0 : ℝ) < ((T * J : ℕ) : ℝ) := by
    have : 0 < T * J := Nat.mul_pos hT hJ
    exact_mod_cast this
  have hle : (J : ℝ) ≤ ((T * J : ℕ) : ℝ) := by
    have : J ≤ T * J := Nat.le_mul_of_pos_left J hT
    exact_mod_cast this
  have hab : Real.logb 10 (J : ℝ) ≤ Real.logb 10 ((T * J : ℕ) : ℝ) :=
    Real.logb_le_logb_of_le (by norm_num) hJR hle
  have hb := logspaceList_mem_bounds hab hy
  rw [Real.rpow_logb (by norm_num) (by norm_num) hJR,
      Real.rpow_logb (by norm_num) (by norm_num) hTJR] at hb
  have hlo : (((J : ℤ)) : ℝ) ≤ y := by
    have := hb.1
    push_cast
    push_cast at this
    exact this
  have hhi : y ≤ (((J : ℤ) * T : ℤ) : ℝ) := by
    have h2 := hb.2
    push_cast
    push_cast at h2
    linarith [h2]
  exact npRound_bounds hlo hhi

lemma log_steps_ne_nil (J T : ℕ) {n : ℕ} (hn : 1 ≤ n) : log_steps J T n ≠ [] := by
  unfold log_steps
  intro h
  have hcard : (((logspaceList (Real.logb 10 J) (Real.logb 10 ((T * J : ℕ))) n).map
      npRound).toFinset).card = 0 := by
    rw [← Finset.length_sort (· ≤ ·), h]
    rfl
  rw [Finset.card_eq_zero, List.toFinset_eq_empty_iff, List.map_eq_nil_iff] at hcard
  have := logspaceList_length (Real.logb 10 J) (Real.logb 10 ((T * J : ℕ))) n
  rw [hcard] at this
  simp at this
  omega

lemma sort_pair_1_10 : ({1, 10} : Finset ℤ).sort (· ≤ ·) = [1, 10] := by
  rw [Finset.sort_insert, Finset.sort_singleton]
  · intro b hb
    simp at hb
    omega
  · decide

/-- With a single requested point the schedule degenerates to `[J]`. -/
lemma log_steps_one (J T : ℕ) (hJ : 1 ≤ J) : log_steps J T 1 = [(J : ℤ)] := by
  have hJ' : (0 : ℝ) < (J : ℝ) := by
    have : 0 < J := hJ
    exact_mod_cast this
  have hr : (10 : ℝ) ^ Real.logb 10 (J : ℝ) = (J : ℝ) :=
    Real.rpow_logb (by norm_num) (by norm_num) hJ'
  have hls : logspaceList (Real.logb 10 J) (Real.logb 10 ((T * J : ℕ))) 1 = [(J : ℝ)] := by
    simp [logspaceList, hr]
  rw [log_steps, hls]
  have hn : npRound ((J : ℕ) : ℝ) = (J : ℤ) := by
    have h := npRound_intCast (J : ℤ)
    simpa using h
  simp [hn]

/-- The concrete schedule for `J = 1`, `T = 10`, `n = 2` is `[1, 10]`. -/
lemma log_steps_1_10_2 : log_steps 1 10 2 = [1, 10] := by
  have h1 : Real.logb 10 ((1 : ℕ) : ℝ) = 0 := by simp
  have h2 : Real.logb 10 (((10 * 1 : ℕ)) : ℝ) = 1 := by norm_num
  rw [log_steps, h1, h2]
  have hls : logspaceList 0 1 2 = [(1 : ℝ), (10 : ℝ)] := by
    simp [logspaceList, List.range_succ]
    rw [show ((2 : ℝ) - 1)⁻¹ = (1 : ℝ) by norm_num, Real.rpow_one]
  rw [hls]
  have e1 : npRound (1 : ℝ) = 1 := by
    have h := npRound_intCast 1
    simpa using h
  have e10 : npRound (10 : ℝ) = 10 := by
    have h := npRound_intCast 10
    simpa using h
  simp [e1, e10, sort_pair_1_10]

/-- C6: for all `J ≥ 1`, `T ≥ 1`, `n ≥ 1`, the log-time schedule computed by
`voter_model` is strictly increasing (hence its entries are distinct), every
entry lies in `[J, J*T]`, its length is at most `n`, and it is a
deterministic function of `(J, T, n)`. -/
theorem C6_log_schedule (J T n : ℕ) (hJ : 1 ≤ J) (hT : 1 ≤ T) (_hn : 1 ≤ n) :
    (log_steps J T n).Sorted (· < ·) ∧
    (∀ x ∈ log_steps J T n, (J : ℤ) ≤ x ∧ x ≤ (J : ℤ) * T) ∧
    (log_steps J T n).length ≤ n ∧
    (∀ J2 T2 n2, J2 = J → T2 = T → n2 = n → log_steps J2 T2 n2 = log_steps J T n) :=
  ⟨log_steps_sorted J T n, log_steps_mem_bounds n hJ hT, log_steps_length_le J T n,
   fun _ _ _ h1 h2 h3 => by rw [h1, h2, h3]⟩

theorem C6_witness :
    1 ≤ 1 ∧
    ((log_steps 1 10 2).Sorted (· < ·) ∧
     (∀ x ∈ log_steps 1 10 2, ((1 : ℕ) : ℤ) ≤ x ∧ x ≤ ((1 : ℕ) : ℤ) * (10 : ℕ)) ∧
     (log_steps 1 10 2).length ≤ 2 ∧
     (∀ J2 T2 n2, J2 = 1 → T2 = 10 → n2 = 2 → log_steps J2 T2 n2 = log_steps 1 10 2)) :=
  ⟨le_refl 1, C6_log_schedule 1 10 2 (by decide) (by decide) (by decide)⟩

/-! ## Determinism and frame lemmas -/

/-- C7: two runs with identical parameters and random sources initialized
from the same seed (same stream, same cursor) produce identical outputs. -/
theorem C7_determinism (S J T : ℕ) (nu : ℚ) (n nc : ℕ) (ic : Option (List ℕ))
    (cts : Option (List ℤ)) (r1 r2 : Rng) (hg : r1.g = r2.g) (hidx : r1.idx = r2.idx) :
    voter_model S J T nu n nc ic cts r1 = voter_model S J T nu n nc ic cts r2 := by
  cases r1
  cases r2
  simp only at hg hidx
  subst hg
  subst hidx
  rfl

theorem C7_witness :
    rng0.g = rng0.g ∧ rng0.idx = rng0.idx ∧
    voter_model 2 1 10 1 2 2 (some [0]) none rng0 =
      voter_model 2 1 10 1 2 2 (some [0]) none rng0 :=
  ⟨rfl, rfl, C7_determinism 2 1 10 1 2 2 (some [0]) none rng0 rng0 rfl rfl⟩

@[simp] lemma updateStep_richness (c : SimCfg) (s : SimState) :
    (updateStep c s).richness = s.richness := rfl
@[simp] lemma updateStep_store (c : SimCfg) (s : SimState) :
    (updateStep c s).store = s.store := rfl
@[simp] lemma updateStep_time (c : SimCfg) (s : SimState) :
    (updateStep c s).time = s.time := rfl
@[simp] lemma updateStep_timeC (c : SimCfg) (s : SimState) :
    (updateStep c s).timeC = s.timeC := rfl
@[simp] lemma updateStep_k (c : SimCfg) (s : SimState) :
    (updateStep c s).k = s.k := rfl
@[simp] lemma updateStep_kc (c : SimCfg) (s : SimState) :
    (updateStep c s).kc = s.kc := rfl
@[simp] lemma updateStep_icArg (c : SimCfg) (s : SimState) :
    (updateStep c s).icArg = s.icArg := rfl
@[simp] lemma updateStep_countsArg (c : SimCfg) (s : SimState) :
    (updateStep c s).countsArg = s.countsArg := rfl
lemma updateStep_opinions (c : SimCfg) (s : SimState) :
    (updateStep c s).opinions = (drawStep c.S c.J c.nu (s.opinions, s.rng)).1 := rfl
lemma updateStep_rng (c : SimCfg) (s : SimState) :
    (updateStep c s).rng = (drawStep c.S c.J c.nu (s.opinions, s.rng)).2 := rfl

@[simp] lemma abundanceStep_opinions (c : SimCfg) (t : ℕ) (s : SimState) :
    (abundanceStep c t s).opinions = s.opinions := by
  unfold abundanceStep; split <;> rfl
@[simp] lemma abundanceStep_rng (c : SimCfg) (t : ℕ) (s : SimState) :
    (abundanceStep c t s).rng = s.rng := by
  unfold abundanceStep; split <;> rfl
@[simp] lemma abundanceStep_richness (c : SimCfg) (t : ℕ) (s : SimState) :
    (abundanceStep c t s).richness = s.richness := by
  unfold abundanceStep; split <;> rfl
@[simp] lemma abundanceStep_time (c : SimCfg) (t : ℕ) (s : SimState) :
    (abundanceStep c t s).time = s.time := by
  unfold abundanceStep; split <;> rfl
@[simp] lemma abundanceStep_k (c : SimCfg) (t : ℕ) (s : SimState) :
    (abundanceStep c t s).k = s.k := by
  unfold abundanceStep; split <;> rfl
@[simp] lemma abundanceStep_icArg (c : SimCfg) (t : ℕ) (s : SimState) :
    (abundanceStep c t s).icArg = s.icArg := by
  unfold abundanceStep; split <;> rfl
@[simp] lemma abundanceStep_countsArg (c : SimCfg) (t : ℕ) (s : SimState) :
    (abundanceStep c t s).countsArg = s.countsArg := by
  unfold abundanceStep; split <;> rfl
@[simp] lemma abundanceStep_store_length (c : SimCfg) (t : ℕ) (s : SimState) :
    (abundanceStep c t s).store.length = s.store.length := by
  unfold abundanceStep; split <;> simp
@[simp] lemma abundanceStep_timeC_length (c : SimCfg) (t : ℕ) (s : SimState) :
    (abundanceStep c t s).timeC.length = s.timeC.length := by
  unfold abundanceStep; split <;> simp

@[simp] lemma truncStep_opinions (c : SimCfg) (s : SimState) :
    (truncStep c s).opinions = s.opinions := by
  unfold truncStep; split <;> rfl
@[simp] lemma truncStep_rng (c : SimCfg) (s : SimState) :
    (truncStep c s).rng = s.rng := by
  unfold truncStep; split <;> rfl
@[simp] lemma truncStep_store (c : SimCfg) (s : SimState) :
    (truncStep c s).store = s.store := by
  unfold truncStep; split <;> rfl
@[simp] lemma truncStep_timeC (c : SimCfg) (s : SimState) :
    (truncStep c s).timeC = s.timeC := by
  unfold truncStep; split <;> rfl
@[simp] lemma truncStep_k (c : SimCfg) (s : SimState) :
    (truncStep c s).k = s.k := by
  unfold truncStep; split <;> rfl
@[simp] lemma truncStep_kc (c : SimCfg) (s : SimState) :
    (truncStep c s).kc = s.kc := by
  unfold truncStep; split <;> rfl
@[simp] lemma truncStep_icArg (c : SimCfg) (s : SimState) :
    (truncStep c s).icArg = s.icArg := by
  unfold truncStep; split <;> rfl
@[simp] lemma truncStep_countsArg (c : SimCfg) (s : SimState) :
    (truncStep c s).countsArg = s.countsArg := by
  unfold truncStep; split <;> rfl

/-- Case analysis of one loop iteration: either it continues with a state
that keeps the caller arrays and the store width, or it returns early, also
keeping both, with `early = true` — which requires `nu = 0`. -/
lemma stepBody_frame (c : SimCfg) (t : ℕ) (s : SimState) :
    (∃ s2, stepBody c t s = Sum.inl s2 ∧ s2.icArg = s.icArg ∧
        s2.countsArg = s.countsArg ∧ s2.store.length = s.store.length ∧
        s2.timeC.length = s.timeC.length) ∨
    (∃ res, stepBody c t s = Sum.inr res ∧ res.icArg = s.icArg ∧
        res.countsArg = s.countsArg ∧ res.store.length = s.store.length ∧
        res.early = true ∧ c.nu = 0) := by
  unfold stepBody richStep
  by_cases h1 : (updateStep c s).k < c.lsteps.length ∧
      (t : ℤ) = c.lsteps.getD ((updateStep c s).k - 1) 0
  · rw [if_pos h1]
    by_cases h2 : c.nu = 0 ∧ (updateStep c s).opinions.dedup.length = 1
    · rw [if_pos h2]
      right
      exact ⟨_, rfl, by simp, by simp, by simp, rfl, h2.1⟩
    · rw [if_neg h2]
      left
      exact ⟨_, rfl, by simp, by simp, by simp, by simp⟩
  · rw [if_neg h1]
    left
    exact ⟨_, rfl, by simp, by simp, by simp, by simp⟩

/-- Unfolding of one loop iteration. -/
lemma loop_succ (c : SimCfg) (t m : ℕ) (s : SimState) :
    loop c t (m + 1) s =
      (match stepBody c t s with
       | Sum.inr res => res
       | Sum.inl s1 => loop c (t + 1) m s1) := rfl

/-- The loop never writes the caller arrays, never changes the store width,
and returns through the early path only when `nu = 0`. -/
lemma loop_frame (c : SimCfg) : ∀ (rem t : ℕ) (s : SimState),
    (loop c t rem s).icArg = s.icArg ∧ (loop c t rem s).countsArg = s.countsArg ∧
    (loop c t rem s).store.length = s.store.length ∧
    (c.nu ≠ 0 → (loop c t rem s).early = false) := by
  intro rem
  induction rem with
  | zero => exact fun t s => ⟨rfl, rfl, rfl, fun _ => rfl⟩
  | succ m ih =>
    intro t s
    rcases stepBody_frame c t s with ⟨s2, heq, h1, h2, h3, h4⟩ |
      ⟨res, heq, h1, h2, h3, h4, h5⟩
    · have hl : loop c t (m + 1) s = loop c (t + 1) m s2 := by
        rw [loop_succ, heq]
      rw [hl]
      obtain ⟨i1, i2, i3, i4⟩ := ih (t + 1) s2
      exact ⟨i1.trans h1, i2.trans h2, i3.trans h3, i4⟩
    · have hl : loop c t (m + 1) s = res := by
        rw [loop_succ, heq]
      rw [hl]
      exact ⟨h1, h2, h3, fun hnu => absurd h5 hnu⟩

/-- C8: `voter_model` never mutates the caller-supplied initial-condition or
counts arrays: in the embedding the caller arrays are carried through the
run state and are returned exactly as supplied (the source copies `IC` into
`opinions` at line 56 and only rebinds the local name `opinion_counts`). -/
theorem C8_no_mutation (S J T : ℕ) (nu : ℚ) (n nc : ℕ) (ic : Option (List ℕ))
    (cts : Option (List ℤ)) (rng : Rng) :
    (voter_model S J T nu n nc ic cts rng).icArg = ic ∧
    (voter_model S J T nu n nc ic cts rng).countsArg = cts := by
  constructor
  · exact (loop_frame _ _ _ _).1
  · exact (loop_frame _ _ _ _).2.1

/-! ## Label-range invariant (C10) and absence of validation (C5) -/

/-- One elementary update keeps every label inside `[0, S)` and keeps the
population size: the peer-copy branch assigns a label already present, the
speciation branch draws uniformly below `S`. -/
lemma drawStep_labels (S J : ℕ) (nu : ℚ) (ops : List ℕ) (r : Rng)
    (hS : 1 ≤ S) (hJ : 1 ≤ J) (hlen : ops.length = J) (hlab : ∀ x ∈ ops, x < S) :
    (∀ x ∈ (drawStep S J nu (ops, r)).1, x < S) ∧
    (drawStep S J nu (ops, r)).1.length = J := by
  unfold drawStep Rng.integers Rng.random
  dsimp only
  split
  · refine ⟨?_, by simpa using hlen⟩
    intro x hx
    simp only at hx
    rcases List.mem_or_eq_of_mem_set hx with h | h
    · exact hlab x h
    · subst h
      have hjlt : r.g (r.idx + 1 + 1) % J < ops.length := by
        rw [hlen]
        exact Nat.mod_lt _ (by omega)
      rw [List.getD_eq_getElem _ _ hjlt]
      exact hlab _ (List.getElem_mem hjlt)
  · refine ⟨?_, by simpa using hlen⟩
    intro x hx
    simp only at hx
    rcases List.mem_or_eq_of_mem_set hx with h | h
    · exact hlab x h
    · subst h
      exact Nat.mod_lt _ (by omega)

/-- Along a whole run the labels stay in `[0, S)` and the size stays `J`. -/
lemma opinionsAfter_labels (S J : ℕ) (nu : ℚ) (ic : List ℕ) (r : Rng)
    (hS : 1 ≤ S) (hJ : 1 ≤ J) (hlen : ic.length = J) (hlab : ∀ x ∈ ic, x < S) :
    ∀ t : ℕ, (∀ x ∈ (opinionsAfter S J nu ic r t).1, x < S) ∧
      (opinionsAfter S J nu ic r t).1.length = J := by
  intro t
  induction t with
  | zero => exact ⟨hlab, hlen⟩
  | succ m ih =>
    have h := drawStep_labels S J nu (opinionsAfter S J nu ic r m).1
      (opinionsAfter S J nu ic r m).2 hS hJ ih.2 ih.1
    exact h

/-- C10: if every initial label lies in `[0, S)` then after every elementary
update step of `voter_model` every label still lies in `[0, S)` — the
peer-copy branch copies a label already present and the speciation branch
draws uniformly from `[0, S)`. -/
theorem C10_labels_stay_in_range (S J : ℕ) (nu : ℚ) (ic : List ℕ) (r : Rng)
    (hS : 1 ≤ S) (hJ : 1 ≤ J) (hlen : ic.length = J) (hlab : ∀ x ∈ ic, x < S) :
    ∀ t : ℕ, ∀ x ∈ (opinionsAfter S J nu ic r t).1, x < S :=
  fun t => (opinionsAfter_labels S J nu ic r hS hJ hlen hlab t).1

theorem C10_witness :
    1 ≤ 2 ∧ 1 ≤ 1 ∧ ([0] : List ℕ).length = 1 ∧ (∀ x ∈ ([0] : List ℕ), x < 2) ∧
    (∀ t : ℕ, ∀ x ∈ (opinionsAfter 2 1 1 [0] rng0 t).1, x < 2) :=
  ⟨by decide, by decide, by decide, by decide,
   C10_labels_stay_in_range 2 1 1 [0] rng0 (by decide) (by decide) (by decide) (by decide)⟩

/-- Unfolding `voter_model` into `simulate` over the two schedules. -/
lemma voter_model_eq_simulate (S J T : ℕ) (nu : ℚ) (n nc : ℕ) (ic : Option (List ℕ))
    (cts : Option (List ℤ)) (rng : Rng) :
    voter_model S J T nu n nc ic cts rng =
      simulate S J T nu (log_steps J T n) (log_steps J T nc) ic cts rng := rfl

/-- C5 (amended): `voter_model` raises no configuration error for an
invalid speciation probability: a call with `nu` outside `[0, 1]` and an
otherwise valid configuration (valid initial condition of length `J` with
labels in `[0, S)`, derived counts) is not rejected — it runs to completion
through the normal return path and its abundance table still has the
allocated width (schedule length + 1).  The hypotheses keep the statement
on the domain where no other error (such as an out-of-range tally index at
source lines 62 and 104-107) can occur. -/
theorem C5_no_validation (S J T : ℕ) (nu : ℚ) (n nc : ℕ) (l : List ℕ) (rng : Rng)
    (_hJ : 1 ≤ J) (_hT : 1 ≤ T) (_hn : 1 ≤ n) (_hnc : 1 ≤ nc)
    (_hlen : l.length = J) (_hlab : ∀ x ∈ l, x < S)
    (hnu : nu < 0 ∨ 1 < nu) :
    (voter_model S J T nu n nc (some l) none rng).early = false ∧
    (voter_model S J T nu n nc (some l) none rng).store.length =
      (log_steps J T nc).length + 1 := by
  have hne : nu ≠ 0 := by
    rcases hnu with h | h <;> intro he <;> rw [he] at h <;> norm_num at h
  constructor
  · exact (loop_frame _ _ _ _).2.2.2 hne
  · exact ((loop_frame _ _ _ _).2.2.1).trans (by simp [initState])

theorem C5_witness :
    1 ≤ 1 ∧ 1 ≤ 10 ∧ ([0] : List ℕ).length = 1 ∧ (∀ x ∈ ([0] : List ℕ), x < 2) ∧
    ((2 : ℚ) < 0 ∨ 1 < (2 : ℚ)) ∧
    ((voter_model 2 1 10 2 2 2 (some [0]) none rng0).early = false ∧
     (voter_model 2 1 10 2 2 2 (some [0]) none rng0).store.length =
       (log_steps 1 10 2).length + 1) :=
  ⟨le_refl 1, by omega, by decide, by decide, Or.inr (by norm_num),
   C5_no_validation 2 1 10 2 2 2 [0] rng0 (by decide) (by decide) (by decide)
     (by decide) (by decide) (by decide) (Or.inr (by norm_num))⟩

/-- C5 counterexample: the claim says a configuration error is raised
eagerly whenever `nu` lies outside `[0, 1]`; but the source performs no
such validation — the call with `nu = 2` below (with a valid initial
condition) is never rejected: it completes normally and returns filled
outputs. -/
theorem C5_counterexample :
    (voter_model 2 1 10 2 2 2 (some [0]) none rng0).early = false ∧
    (voter_model 2 1 10 2 2 2 (some [0]) none rng0).richness = [1, 1] ∧
    (voter_model 2 1 10 2 2 2 (some [0]) none rng0).time = [0, 1] := by
  rw [voter_model_eq_simulate, log_steps_1_10_2]
  refine ⟨?_, ?_, ?_⟩ <;>
    simp +decide [simulate, initState, loop, stepBody, updateStep, drawStep, richStep,
      abundanceStep, truncStep, finalize, Rng.integers, Rng.random, tallyZ, rng0]

/-! ## The truncated log-series distribution (C9) -/

lemma logseriesWeight_pos {theta : ℝ} (h0 : 0 < theta) (h1 : theta < 1) {k : ℕ}
    (hk : 1 ≤ k) : 0 < logseriesWeight theta k := by
  unfold logseriesWeight
  have hp : 0 < theta ^ k := pow_pos h0 k
  have hlog : Real.log (1 - theta) < 0 := Real.log_neg (by linarith) (by linarith)
  have hk' : (0 : ℝ) < (k : ℝ) := by
    have : 0 < k := hk
    exact_mod_cast this
  have hden : (k : ℝ) * Real.log (1 - theta) < 0 := mul_neg_of_pos_of_neg hk' hlog
  rw [div_pos_iff]
  right
  exact ⟨by linarith, hden⟩

lemma logseriesWeight_sum_pos {theta : ℝ} (h0 : 0 < theta) (h1 : theta < 1) {m : ℕ}
    (hm : 1 ≤ m) : 0 < ∑ j in Finset.Icc 1 m, logseriesWeight theta j :=
  Finset.sum_pos (fun _ hi => logseriesWeight_pos h0 h1 (Finset.mem_Icc.mp hi).1)
    ⟨1, Finset.mem_Icc.mpr ⟨le_refl 1, hm⟩⟩

/-- C9: for `θ ∈ (0, 1)` and `m ≥ 1`, `logseries_distribution` succeeds and
its pmf is the normalisation of `w(k) = -θ^k / (k ln(1-θ))` over
`{1, ..., m}`; the pmf sums to `1`, vanishes outside the support, and is
proportional to `θ^k / k` on it. -/
theorem C9_logseries_pmf (theta : ℝ) (m : ℕ) (h0 : 0 < theta) (h1 : theta < 1)
    (hm : 1 ≤ m) :
    ∃ f, logseries_distribution theta m = some f ∧
      (∀ k, 1 ≤ k → k ≤ m →
        f k = logseriesWeight theta k / ∑ j in Finset.Icc 1 m, logseriesWeight theta j) ∧
      (∑ k in Finset.Icc 1 m, f k) = 1 ∧
      (∀ k, ¬(1 ≤ k ∧ k ≤ m) → f k = 0) ∧
      (∃ c : ℝ, 0 < c ∧ ∀ k, 1 ≤ k → k ≤ m → f k = c * (theta ^ k / k)) := by
  have hlog : Real.log (1 - theta) < 0 := Real.log_neg (by linarith) (by linarith)
  have hS := logseriesWeight_sum_pos h0 h1 hm
  refine ⟨logseriesPmfFun theta m, ?_, ?_, ?_, ?_, ?_⟩
  · unfold logseries_distribution
    rw [if_pos ⟨h0, h1⟩]
  · intro k hk1 hk2
    unfold logseriesPmfFun
    rw [if_pos ⟨hk1, hk2⟩]
  · have hcong : ∑ k in Finset.Icc 1 m, logseriesPmfFun theta m k =
        ∑ k in Finset.Icc 1 m,
          logseriesWeight theta k / ∑ j in Finset.Icc 1 m, logseriesWeight theta j := by
      apply Finset.sum_congr rfl
      intro k hk
      obtain ⟨hk1, hk2⟩ := Finset.mem_Icc.mp hk
      unfold logseriesPmfFun
      rw [if_pos ⟨hk1, hk2⟩]
    rw [hcong, ← Finset.sum_div, div_self (ne_of_gt hS)]
  · intro k hk
    unfold logseriesPmfFun
    rw [if_neg hk]
  · refine ⟨(-Real.log (1 - theta))⁻¹ / ∑ j in Finset.Icc 1 m, logseriesWeight theta j,
      ?_, ?_⟩
    · apply div_pos _ hS
      rw [inv_pos, neg_pos]
      exact hlog
    · intro k hk1 hk2
      unfold logseriesPmfFun
      rw [if_pos ⟨hk1, hk2⟩]
      unfold logseriesWeight
      have hlne : Real.log (1 - theta) ≠ 0 := ne_of_lt hlog
      have hkne : (k : ℝ) ≠ 0 := Nat.cast_ne_zero.mpr (by omega)
      field_simp
      ring

theorem C9_witness :
    (0 : ℝ) < 1 / 2 ∧ (1 : ℝ) / 2 < 1 ∧ 1 ≤ 1 ∧
    (∃ f, logseries_distribution (1 / 2) 1 = some f ∧
      (∀ k, 1 ≤ k → k ≤ 1 →
        f k = logseriesWeight (1 / 2) k / ∑ j in Finset.Icc 1 1, logseriesWeight (1 / 2) j) ∧
      (∑ k in Finset.Icc 1 1, f k) = 1 ∧
      (∀ k, ¬(1 ≤ k ∧ k ≤ 1) → f k = 0) ∧
      (∃ c : ℝ, 0 < c ∧ ∀ k, 1 ≤ k → k ≤ 1 → f k = c * ((1 / 2 : ℝ) ^ k / k))) :=
  ⟨by norm_num, by norm_num, le_refl 1,
   C9_logseries_pmf (1 / 2) 1 (by norm_num) (by norm_num) (le_refl 1)⟩

/-! ## Supporting lemmas for the loop invariant -/

lemma drawStep_length (S J : ℕ) (nu : ℚ) (p : List ℕ × Rng) :
    (drawStep S J nu p).1.length = p.1.length := by
  unfold drawStep Rng.integers Rng.random
  dsimp only
  split <;> simp

lemma opinionsAfter_length (S J : ℕ) (nu : ℚ) (ic : List ℕ) (r : Rng) :
    ∀ t, (opinionsAfter S J nu ic r t).1.length = ic.length := by
  intro t
  induction t with
  | zero => rfl
  | succ m ih => rw [opinionsAfter, drawStep_length, ih]

@[simp] lemma richTraj_length (S J : ℕ) (nu : ℚ) (ic : List ℕ) (r : Rng)
    (steps : List ℤ) (w : ℕ) : (richTraj S J nu ic r steps w).length = w := by
  simp [richTraj]

@[simp] lemma timeTraj_length (J : ℕ) (steps : List ℤ) (w : ℕ) :
    (timeTraj J steps w).length = w := by
  simp [timeTraj]

@[simp] lemma storeTraj_length (S J : ℕ) (nu : ℚ) (ic : List ℕ) (r : Rng)
    (steps : List ℤ) (w : ℕ) : (storeTraj S J nu ic r steps w).length = w := by
  simp [storeTraj]

lemma richTraj_succ (S J : ℕ) (nu : ℚ) (ic : List ℕ) (r : Rng) (steps : List ℤ) (w : ℕ) :
    richTraj S J nu ic r steps (w + 1) =
      richTraj S J nu ic r steps w ++
        [((opinionsAfter S J nu ic r (steps.getD w 0).toNat).1).dedup.length] := by
  simp [richTraj, List.range_succ]

lemma timeTraj_succ (J : ℕ) (steps : List ℤ) (w : ℕ) :
    timeTraj J steps (w + 1) =
      timeTraj J steps w ++ [((steps.getD w 0 : ℤ) : ℚ) / (J : ℚ)] := by
  simp [timeTraj, List.range_succ]

lemma storeTraj_succ (S J : ℕ) (nu : ℚ) (ic : List ℕ) (r : Rng) (steps : List ℤ) (w : ℕ) :
    storeTraj S J nu ic r steps (w + 1) =
      storeTraj S J nu ic r steps w ++
        [tallyZ S ((opinionsAfter S J nu ic r (steps.getD w 0).toNat).1)] := by
  simp [storeTraj, List.range_succ]

lemma sorted_getD_lt {l : List ℤ} (hs : l.Sorted (· < ·)) {i j : ℕ} (hij : i < j)
    (hj : j < l.length) : l.getD i 0 < l.getD j 0 := by
  rw [List.getD_eq_getElem _ _ (lt_trans hij hj), List.getD_eq_getElem _ _ hj]
  exact List.Sorted.rel_get_of_lt hs (Fin.mk_lt_mk.mpr hij)

lemma dedup_length_pos {l : List ℕ} (h : l ≠ []) : 1 ≤ l.dedup.length := by
  rw [Nat.one_le_iff_ne_zero]
  intro hc
  rw [List.length_eq_zero] at hc
  exact h ((List.dedup_eq_nil l).mp hc)

lemma set_cons_traj {α : Type} (h : α) (tr : List α) (z v : α) (m : ℕ) :
    (h :: (tr ++ List.replicate (m + 1) z)).set (tr.length + 1) v =
      h :: ((tr ++ [v]) ++ List.replicate m z) := by
  rw [List.set_cons_succ, set_append_left_length, List.replicate_succ,
    List.set_cons_zero, ← List.append_cons]

lemma set_cons_traj2 {α : Type} (h : α) (tr : List α) (z v : α) (m w : ℕ)
    (hw : tr.length = w) :
    (h :: (tr ++ List.replicate (m + 1) z)).set (w + 1) v =
      h :: ((tr ++ [v]) ++ List.replicate m z) := by
  subst hw
  exact set_cons_traj h tr z v m

lemma take_cons_traj {α : Type} (h : α) (tr : List α) (v : α) (rest : List α) :
    (h :: (tr ++ (v :: rest))).take (tr.length + 2) = h :: (tr ++ [v]) := by
  rw [show tr.length + 2 = (tr.length + 1) + 1 by omega, List.take_succ_cons,
    show tr.length + 1 = tr.length + 1 by rfl]
  congr 1
  rw [List.take_append]
  congr 1

lemma getLastD_cons_append_replicate {α : Type} (h : α) (tr : List α) (z d : α) (m : ℕ) :
    (h :: (tr ++ List.replicate (m + 1) z)).getLastD d = z := by
  rw [← List.cons_append, getLastD_append_right _ _ (by simp),
    getLastD_replicate]

lemma dropLast_cons_append_singleton {α : Type} (h : α) (tr : List α) (z : α) :
    (h :: (tr ++ [z])).dropLast = h :: tr := by
  rw [← List.cons_append, List.dropLast_concat]

lemma take_cons_left {α : Type} (h : α) (tr rest : List α) :
    (h :: (tr ++ rest)).take (tr.length + 1) = h :: tr := by
  rw [List.take_succ_cons, List.take_left]

/-- The elementary update advances the population trajectory by one step. -/
lemma updateStep_opAt (X : Ctx) (t : ℕ) (s : SimState) (ht : 1 ≤ t)
    (h1 : s.opinions = (X.opAt (t - 1)).1) (h2 : s.rng = (X.opAt (t - 1)).2) :
    (updateStep X.cfg s).opinions = (X.opAt t).1 ∧
    (updateStep X.cfg s).rng = (X.opAt t).2 := by
  have hp : (s.opinions, s.rng) = X.opAt (t - 1) := by
    rw [h1, h2]
  have hstep : X.opAt t = drawStep X.S X.J X.nu (X.opAt (t - 1)) := by
    have ht' : t = (t - 1) + 1 := by omega
    rw [ht']
    rfl
  constructor
  · rw [updateStep_opinions, hp, hstep]
    rfl
  · rw [updateStep_rng, hp, hstep]
    rfl

lemma listRangeSum (n : ℕ) (f : ℕ → ℤ) :
    ((List.range n).map f).sum = ∑ i in Finset.range n, f i := by
  induction n with
  | zero => simp
  | succ m ih => rw [List.range_succ, List.map_append, List.sum_append,
      Finset.sum_range_succ, ih]; simp

lemma sum_count_range (S : ℕ) : ∀ (ops : List ℕ), (∀ x ∈ ops, x < S) →
    ∑ i in Finset.range S, ((ops.count i : ℕ) : ℤ) = (ops.length : ℤ)
  | [], _ => by simp
  | a :: l, h => by
    have ha : a < S := h a (List.mem_cons_self a l)
    have hl : ∀ x ∈ l, x < S := fun x hx => h x (List.mem_cons_of_mem a hx)
    have hc : ∀ i : ℕ, (((a :: l).count i : ℕ) : ℤ) =
        ((l.count i : ℕ) : ℤ) + (if i = a then 1 else 0) := by
      intro i
      by_cases hia : i = a
      · subst hia
        simp [List.count_cons]
      · simp [List.count_cons, hia, Ne.symm hia]
    calc ∑ i in Finset.range S, (((a :: l).count i : ℕ) : ℤ)
        = ∑ i in Finset.range S, (((l.count i : ℕ) : ℤ) + (if i = a then 1 else 0)) :=
          Finset.sum_congr rfl fun i _ => hc i
      _ = (l.length : ℤ) + 1 := by
          rw [Finset.sum_add_distrib, sum_count_range S l hl,
            Finset.sum_ite_eq' (Finset.range S) a fun _ => (1 : ℤ),
            if_pos (Finset.mem_range.mpr ha)]
      _ = ((a :: l).length : ℤ) := by
          rw [List.length_cons]
          push_cast
          ring

/-- The tally of a population whose labels all lie below `S` sums to the
population size. -/
lemma tallyZ_sum (S : ℕ) (ops : List ℕ) (hlab : ∀ x ∈ ops, x < S) :
    (tallyZ S ops).sum = (ops.length : ℤ) := by
  unfold tallyZ
  rw [listRangeSum]
  exact sum_count_range S ops hlab

lemma tallyZ_nonneg (S : ℕ) (ops : List ℕ) : ∀ x ∈ tallyZ S ops, 0 ≤ x := by
  intro x hx
  simp only [tallyZ, List.mem_map] at hx
  obtain ⟨o, _, rfl⟩ := hx
  positivity

@[simp] lemma Ctx_cfg_S (X : Ctx) : X.cfg.S = X.S := rfl
@[simp] lemma Ctx_cfg_J (X : Ctx) : X.cfg.J = X.J := rfl
@[simp] lemma Ctx_cfg_nu (X : Ctx) : X.cfg.nu = X.nu := rfl
@[simp] lemma Ctx_cfg_lsteps (X : Ctx) : X.cfg.lsteps = X.lsteps := rfl
@[simp] lemma Ctx_cfg_lstepsC (X : Ctx) : X.cfg.lstepsC = X.lstepsC := rfl

lemma abundanceStep_pos (c : SimCfg) (t : ℕ) (s : SimState)
    (h : s.kc < c.lstepsC.length ∧ (t : ℤ) = c.lstepsC.getD (s.kc - 1) 0) :
    abundanceStep c t s =
      { s with store := s.store.set s.kc (tallyZ c.S s.opinions),
               timeC := s.timeC.set s.kc ((t : ℚ) / (c.J : ℚ)),
               kc := s.kc + 1 } := by
  unfold abundanceStep
  rw [if_pos h]

lemma abundanceStep_neg (c : SimCfg) (t : ℕ) (s : SimState)
    (h : ¬(s.kc < c.lstepsC.length ∧ (t : ℤ) = c.lstepsC.getD (s.kc - 1) 0)) :
    abundanceStep c t s = s := by
  unfold abundanceStep
  rw [if_neg h]

lemma truncStep_pos (c : SimCfg) (s : SimState)
    (h1 : s.k = c.lsteps.length) (h2 : s.richness.getLastD 0 = 0) :
    truncStep c s =
      { s with richness := s.richness.dropLast, time := s.time.dropLast } := by
  unfold truncStep
  rw [if_pos ⟨h1, h2⟩]

lemma truncStep_neg (c : SimCfg) (s : SimState)
    (h : ¬(s.k = c.lsteps.length ∧ s.richness.getLastD 0 = 0)) :
    truncStep c s = s := by
  unfold truncStep
  rw [if_neg h]

/-- Preservation of the abundance half of the loop invariant through the
abundance checkpoint of iteration `t`. -/
lemma abund_preserve (X : Ctx) (t : ℕ) (s' : SimState) (wc : ℕ)
    (hops' : s'.opinions = (X.opAt t).1)
    (hkc : s'.kc = wc + 1) (hwcle : wc + 1 ≤ X.lstepsC.length)
    (hpastC : ∀ j, j < wc → X.lstepsC.getD j 0 < (t : ℤ))
    (hnextC : wc + 1 < X.lstepsC.length → (t : ℤ) ≤ X.lstepsC.getD wc 0)
    (hsortC : X.lstepsC.Sorted (· < ·))
    (hstore : s'.store = X.counts0 ::
      (storeTraj X.S X.J X.nu X.ic0 X.rin X.lstepsC wc ++
        List.replicate (X.lstepsC.length - wc) (List.replicate X.S 0)))
    (htimeC : s'.timeC = 0 ::
      (timeTraj X.J X.lstepsC wc ++ List.replicate (X.lstepsC.length - wc) 0)) :
    ∃ wc2, (abundanceStep X.cfg t s').kc = wc2 + 1 ∧
      wc2 + 1 ≤ X.lstepsC.length ∧
      (∀ j, j < wc2 → X.lstepsC.getD j 0 < ((t + 1 : ℕ) : ℤ)) ∧
      (wc2 + 1 < X.lstepsC.length → ((t + 1 : ℕ) : ℤ) ≤ X.lstepsC.getD wc2 0) ∧
      (abundanceStep X.cfg t s').store = X.counts0 ::
        (storeTraj X.S X.J X.nu X.ic0 X.rin X.lstepsC wc2 ++
          List.replicate (X.lstepsC.length - wc2) (List.replicate X.S 0)) ∧
      (abundanceStep X.cfg t s').timeC = 0 ::
        (timeTraj X.J X.lstepsC wc2 ++ List.replicate (X.lstepsC.length - wc2) 0) := by
  by_cases hGc : s'.kc < X.cfg.lstepsC.length ∧ (t : ℤ) = X.cfg.lstepsC.getD (s'.kc - 1) 0
  · -- the checkpoint fires: column wc + 1 is written
    have hGc1 : wc + 1 < X.lstepsC.length := by
      have := hGc.1
      rwa [hkc, Ctx_cfg_lstepsC] at this
    have hGc2 : (t : ℤ) = X.lstepsC.getD wc 0 := by
      have := hGc.2
      rwa [hkc, Ctx_cfg_lstepsC, Nat.add_sub_cancel] at this
    rw [abundanceStep_pos _ _ _ hGc]
    refine ⟨wc + 1, by simp [hkc], hGc1, ?_, ?_, ?_, ?_⟩
    · intro j hj
      push_cast
      rcases Nat.lt_succ_iff_lt_or_eq.mp hj with h | h
      · have := hpastC j h
        omega
      · subst h
        omega
    · intro hlt
      push_cast
      have hlt2 : wc + 1 < X.lstepsC.length := by omega
      have hstep : X.lstepsC.getD wc 0 < X.lstepsC.getD (wc + 1) 0 :=
        sorted_getD_lt hsortC (Nat.lt_succ_self wc) hlt2
      omega
    · -- the store update
      have htal : tallyZ X.cfg.S s'.opinions =
          tallyZ X.S ((opinionsAfter X.S X.J X.nu X.ic0 X.rin
            ((X.lstepsC.getD wc 0).toNat)).1) := by
        rw [Ctx_cfg_S, hops', ← hGc2, Int.toNat_natCast]
        rfl
      have hrep : X.lstepsC.length - wc = (X.lstepsC.length - (wc + 1)) + 1 := by omega
      dsimp only
      rw [hstore, hkc, hrep,
        set_cons_traj2 X.counts0 _ _ _ _ wc (storeTraj_length _ _ _ _ _ _ _),
        storeTraj_succ, htal]
    · have htq : ((t : ℕ) : ℚ) / (X.cfg.J : ℚ) =
          ((X.lstepsC.getD wc 0 : ℤ) : ℚ) / (X.J : ℚ) := by
        rw [Ctx_cfg_J, ← hGc2]
        norm_num
      have hrep : X.lstepsC.length - wc = (X.lstepsC.length - (wc + 1)) + 1 := by omega
      dsimp only
      rw [htimeC, hkc, hrep,
        set_cons_traj2 (0 : ℚ) _ _ _ _ wc (timeTraj_length _ _ _),
        timeTraj_succ, htq]
  · -- no abundance checkpoint at this step
    rw [abundanceStep_neg _ _ _ hGc]
    refine ⟨wc, hkc, hwcle, ?_, ?_, hstore, htimeC⟩
    · intro j hj
      have := hpastC j hj
      push_cast
      omega
    · intro hlt
      have hle := hnextC hlt
      have hne : (t : ℤ) ≠ X.lstepsC.getD wc 0 := by
        intro he
        exact hGc ⟨by rw [hkc, Ctx_cfg_lstepsC]; exact hlt,
          by rw [hkc, Ctx_cfg_lstepsC, Nat.add_sub_cancel]; exact he⟩
      push_cast
      omega


/-- Every recorded richness snapshot is positive: the population is never
empty, so it always has at least one distinct label. -/
lemma richTraj_pos (X : Ctx) (hX : CtxOk X) (w : ℕ) :
    ∀ x ∈ richTraj X.S X.J X.nu X.ic0 X.rin X.lsteps w, 1 ≤ x := by
  intro x hx
  simp only [richTraj, List.mem_map, List.mem_range] at hx
  obtain ⟨j, _, rfl⟩ := hx
  apply dedup_length_pos
  intro hnil
  have hL := opinionsAfter_length X.S X.J X.nu X.ic0 X.rin ((X.lsteps.getD j 0).toNat)
  rw [hX.hic, hnil] at hL
  simp at hL
  have hJ := hX.hJ
  omega

/-- Assembling the invariant at `t + 1` from the state after the richness
checkpoint of iteration `t`: the abundance checkpoint and the trailing-slot
elimination still have to run. -/
lemma assemble_inv (X : Ctx) (hX : CtxOk X) (t : ℕ) (s1' : SimState) (w2 wc : ℕ)
    (hRops : s1'.opinions = (X.opAt t).1)
    (hRrng : s1'.rng = (X.opAt t).2)
    (hRk : s1'.k = w2 + 1)
    (hwle2 : w2 + 1 ≤ X.lsteps.length)
    (hpast2 : ∀ j, j < w2 → X.lsteps.getD j 0 < ((t + 1 : ℕ) : ℤ))
    (hnext2 : w2 + 1 < X.lsteps.length → ((t + 1 : ℕ) : ℤ) ≤ X.lsteps.getD w2 0)
    (hdisj2 :
      (s1'.richness = X.r0 :: (richTraj X.S X.J X.nu X.ic0 X.rin X.lsteps w2 ++
         List.replicate (X.lsteps.length - w2) 0) ∧
       s1'.time = 0 :: (timeTraj X.J X.lsteps w2 ++
         List.replicate (X.lsteps.length - w2) 0)) ∨
      (w2 + 1 = X.lsteps.length ∧
       s1'.richness = X.r0 :: richTraj X.S X.J X.nu X.ic0 X.rin X.lsteps w2 ∧
       s1'.time = 0 :: timeTraj X.J X.lsteps w2))
    (hRkc : s1'.kc = wc + 1) (hwcle : wc + 1 ≤ X.lstepsC.length)
    (hpastC : ∀ j, j < wc → X.lstepsC.getD j 0 < (t : ℤ))
    (hnextC : wc + 1 < X.lstepsC.length → (t : ℤ) ≤ X.lstepsC.getD wc 0)
    (hRstore : s1'.store = X.counts0 ::
      (storeTraj X.S X.J X.nu X.ic0 X.rin X.lstepsC wc ++
        List.replicate (X.lstepsC.length - wc) (List.replicate X.S 0)))
    (hRtimeC : s1'.timeC = 0 ::
      (timeTraj X.J X.lstepsC wc ++ List.replicate (X.lstepsC.length - wc) 0)) :
    LoopInv X (t + 1) (truncStep X.cfg (abundanceStep X.cfg t s1')) := by
  have hr0 := hX.hr0
  obtain ⟨wc2, habk, habwle, habpast, habnext, habstore, habtimeC⟩ :=
    abund_preserve X t s1' wc hRops hRkc hwcle hpastC hnextC hX.hsortC hRstore hRtimeC
  have habund : ∃ wcx, (truncStep X.cfg (abundanceStep X.cfg t s1')).kc = wcx + 1 ∧
      wcx + 1 ≤ X.lstepsC.length ∧
      (∀ j, j < wcx → X.lstepsC.getD j 0 < ((t + 1 : ℕ) : ℤ)) ∧
      (wcx + 1 < X.lstepsC.length → ((t + 1 : ℕ) : ℤ) ≤ X.lstepsC.getD wcx 0) ∧
      (truncStep X.cfg (abundanceStep X.cfg t s1')).store = X.counts0 ::
        (storeTraj X.S X.J X.nu X.ic0 X.rin X.lstepsC wcx ++
          List.replicate (X.lstepsC.length - wcx) (List.replicate X.S 0)) ∧
      (truncStep X.cfg (abundanceStep X.cfg t s1')).timeC = 0 ::
        (timeTraj X.J X.lstepsC wcx ++ List.replicate (X.lstepsC.length - wcx) 0) := by
    refine ⟨wc2, ?_, habwle, habpast, habnext, ?_, ?_⟩
    · rw [truncStep_kc]
      exact habk
    · rw [truncStep_store]
      exact habstore
    · rw [truncStep_timeC]
      exact habtimeC
  rcases hdisj2 with ⟨hrich2, htime2⟩ | ⟨hlenB, hrichB, htimeB⟩
  · by_cases hlt : w2 + 1 < X.lsteps.length
    · -- not at the end of the schedule: no truncation
      have htr := truncStep_neg X.cfg (abundanceStep X.cfg t s1')
        (by
          intro hcon
          have h := hcon.1
          rw [abundanceStep_k, hRk, Ctx_cfg_lsteps] at h
          omega)
      refine ⟨by omega, ?_, ?_, ?_, habund⟩
      · rw [htr, abundanceStep_opinions, hRops, Nat.add_sub_cancel]
      · rw [htr, abundanceStep_rng, hRrng, Nat.add_sub_cancel]
      · refine ⟨w2, ?_, by omega, hpast2, hnext2, ?_⟩
        · rw [htr, abundanceStep_k, hRk]
        · left
          refine ⟨?_, ?_, fun hcon => absurd hcon (by omega)⟩
          · rw [htr, abundanceStep_richness, hrich2]
          · rw [htr, abundanceStep_time, htime2]
    · -- k has reached the schedule length and the trailing slot is still 0
      have hle : w2 + 1 = X.lsteps.length := by omega
      have hlw : X.lsteps.length - w2 = 1 := by omega
      have htr := truncStep_pos X.cfg (abundanceStep X.cfg t s1')
        (by rw [abundanceStep_k, hRk, Ctx_cfg_lsteps]; omega)
        (by
          rw [abundanceStep_richness, hrich2, hlw]
          exact getLastD_cons_append_replicate _ _ _ _ 0)
      refine ⟨by omega, ?_, ?_, ?_, ?_⟩
      · show (truncStep X.cfg (abundanceStep X.cfg t s1')).opinions = _
        rw [htr]
        show (abundanceStep X.cfg t s1').opinions = _
        rw [abundanceStep_opinions, hRops, Nat.add_sub_cancel]
      · show (truncStep X.cfg (abundanceStep X.cfg t s1')).rng = _
        rw [htr]
        show (abundanceStep X.cfg t s1').rng = _
        rw [abundanceStep_rng, hRrng, Nat.add_sub_cancel]
      · refine ⟨w2, ?_, by omega, hpast2, hnext2, ?_⟩
        · rw [htr]
          show (abundanceStep X.cfg t s1').k = w2 + 1
          rw [abundanceStep_k, hRk]
        · right
          refine ⟨hle, ?_, ?_⟩
          · rw [htr]
            show (abundanceStep X.cfg t s1').richness.dropLast = _
            rw [abundanceStep_richness, hrich2, hlw, List.replicate_one,
              dropLast_cons_append_singleton]
          · rw [htr]
            show (abundanceStep X.cfg t s1').time.dropLast = _
            rw [abundanceStep_time, htime2, hlw, List.replicate_one,
              dropLast_cons_append_singleton]
      · obtain ⟨wcx, h1, h2, h3, h4, h5, h6⟩ := habund
        rw [htr] at h1 h5 h6
        refine ⟨wcx, ?_, h2, h3, h4, ?_, ?_⟩
        · rw [htr]
          exact h1
        · rw [htr]
          exact h5
        · rw [htr]
          exact h6
  · -- already truncated: the last richness entry is positive, nothing fires
    have hlast : ((X.r0 :: richTraj X.S X.J X.nu X.ic0 X.rin X.lsteps w2).getLastD 0) ≠ 0 := by
      have hmem := getLastD_cons_mem (richTraj X.S X.J X.nu X.ic0 X.rin X.lsteps w2) X.r0 0
      rcases List.mem_cons.mp hmem with h | h
      · rw [h]
        omega
      · have := richTraj_pos X hX w2 _ h
        omega
    have htr := truncStep_neg X.cfg (abundanceStep X.cfg t s1')
      (by
        intro hcon
        have h := hcon.2
        rw [abundanceStep_richness, hrichB] at h
        exact hlast h)
    refine ⟨by omega, ?_, ?_, ?_, habund⟩
    · rw [htr, abundanceStep_opinions, hRops, Nat.add_sub_cancel]
    · rw [htr, abundanceStep_rng, hRrng, Nat.add_sub_cancel]
    · refine ⟨w2, ?_, by omega, hpast2, hnext2, ?_⟩
      · rw [htr, abundanceStep_k, hRk]
      · right
        refine ⟨hlenB, ?_, ?_⟩
        · rw [htr, abundanceStep_richness, hrichB]
        · rw [htr, abundanceStep_time, htimeB]

/-- Preservation of the loop invariant by one full iteration that does not
return early. -/
lemma stepBody_inv (X : Ctx) (hX : CtxOk X) (t : ℕ) (s s2 : SimState)
    (hInv : LoopInv X t s) (heq : stepBody X.cfg t s = Sum.inl s2) :
    LoopInv X (t + 1) s2 := by
  obtain ⟨ht, hops, hrng, ⟨w, hk, hwle, hpast, hnext, hdisj⟩,
    ⟨wc, hkc, hwcle, hpastC, hnextC, hstore, htimeC⟩⟩ := hInv
  obtain ⟨hops1, hrng1⟩ := updateStep_opAt X t s ht hops hrng
  have hk1 : (updateStep X.cfg s).k = w + 1 := by rw [updateStep_k, hk]
  have hkc1 : (updateStep X.cfg s).kc = wc + 1 := by rw [updateStep_kc, hkc]
  unfold stepBody at heq
  cases hrs : richStep X.cfg t (updateStep X.cfg s) with
  | inr res =>
    rw [hrs] at heq
    simp at heq
  | inl s1' =>
    rw [hrs] at heq
    have heq2 : truncStep X.cfg (abundanceStep X.cfg t s1') = s2 := by
      simpa using heq
    subst heq2
    unfold richStep at hrs
    by_cases hG : (updateStep X.cfg s).k < X.cfg.lsteps.length ∧
        (t : ℤ) = X.cfg.lsteps.getD ((updateStep X.cfg s).k - 1) 0
    · rw [if_pos hG] at hrs
      by_cases hE : X.cfg.nu = 0 ∧ (updateStep X.cfg s).opinions.dedup.length = 1
      · rw [if_pos hE] at hrs
        exact absurd hrs (by simp)
      · rw [if_neg hE] at hrs
        rw [Sum.inl.injEq] at hrs
        have hG1 : w + 1 < X.lsteps.length := by
          have h := hG.1
          rwa [hk1, Ctx_cfg_lsteps] at h
        have hG2 : (t : ℤ) = X.lsteps.getD w 0 := by
          have h := hG.2
          rwa [hk1, Ctx_cfg_lsteps, Nat.add_sub_cancel] at h
        rcases hdisj with ⟨hrich, htime, _⟩ | ⟨hlenB, _, _⟩
        swap
        · exact absurd hlenB (by omega)
        have hrep : X.lsteps.length - w = (X.lsteps.length - (w + 1)) + 1 := by omega
        have hrval : (updateStep X.cfg s).opinions.dedup.length =
            ((opinionsAfter X.S X.J X.nu X.ic0 X.rin
              ((X.lsteps.getD w 0).toNat)).1).dedup.length := by
          rw [hops1, ← hG2, Int.toNat_natCast]
          rfl
        have hrich2 : (updateStep X.cfg s).richness.set ((updateStep X.cfg s).k)
            ((updateStep X.cfg s).opinions.dedup.length) =
            X.r0 :: (richTraj X.S X.J X.nu X.ic0 X.rin X.lsteps (w + 1) ++
              List.replicate (X.lsteps.length - (w + 1)) 0) := by
          rw [updateStep_richness, hrich, hk1, hrep,
            set_cons_traj2 X.r0 _ _ _ _ w (richTraj_length _ _ _ _ _ _ _),
            richTraj_succ, hrval]
        have htval : ((t : ℕ) : ℚ) / (X.cfg.J : ℚ) =
            ((X.lsteps.getD w 0 : ℤ) : ℚ) / (X.J : ℚ) := by
          rw [Ctx_cfg_J, ← hG2]
          norm_num
        have htime2 : (updateStep X.cfg s).time.set ((updateStep X.cfg s).k)
            ((t : ℚ) / (X.cfg.J : ℚ)) =
            0 :: (timeTraj X.J X.lsteps (w + 1) ++
              List.replicate (X.lsteps.length - (w + 1)) 0) := by
          rw [updateStep_time, htime, hk1, hrep,
            set_cons_traj2 (0 : ℚ) _ _ _ _ w (timeTraj_length _ _ _),
            timeTraj_succ, htval]
        apply assemble_inv X hX t s1' (w + 1) wc
        · rw [← hrs]
          exact hops1
        · rw [← hrs]
          exact hrng1
        · rw [← hrs]
          show (updateStep X.cfg s).k + 1 = w + 1 + 1
          rw [hk1]
        · omega
        · intro j hj
          push_cast
          rcases Nat.lt_succ_iff_lt_or_eq.mp hj with h | h
          · have := hpast j h
            omega
          · subst h
            omega
        · intro hlt
          push_cast
          have hstep := sorted_getD_lt hX.hsort (show w < w + 1 by omega)
            (show w + 1 < X.lsteps.length by omega)
          omega
        · left
          constructor
          · rw [← hrs]
            exact hrich2
          · rw [← hrs]
            exact htime2
        · rw [← hrs]
          exact hkc1
        · exact hwcle
        · exact hpastC
        · exact hnextC
        · rw [← hrs]
          show (updateStep X.cfg s).store = _
          rw [updateStep_store, hstore]
        · rw [← hrs]
          show (updateStep X.cfg s).timeC = _
          rw [updateStep_timeC, htimeC]
    · rw [if_neg hG] at hrs
      rw [Sum.inl.injEq] at hrs
      apply assemble_inv X hX t s1' w wc
      · rw [← hrs]
        exact hops1
      · rw [← hrs]
        exact hrng1
      · rw [← hrs]
        exact hk1
      · omega
      · intro j hj
        have := hpast j hj
        push_cast
        omega
      · intro hlt
        have hne : (t : ℤ) ≠ X.lsteps.getD w 0 := by
          intro hcon
          exact hG ⟨by rw [hk1, Ctx_cfg_lsteps]; exact hlt,
            by rw [hk1, Ctx_cfg_lsteps, Nat.add_sub_cancel]; exact hcon⟩
        have hle := hnext hlt
        push_cast
        omega
      · rcases hdisj with ⟨hrich, htime, _⟩ | ⟨hlenB, hrichB, htimeB⟩
        · left
          constructor
          · rw [← hrs, updateStep_richness]
            exact hrich
          · rw [← hrs, updateStep_time]
            exact htime
        · right
          refine ⟨hlenB, ?_, ?_⟩
          · rw [← hrs, updateStep_richness]
            exact hrichB
          · rw [← hrs, updateStep_time]
            exact htimeB
      · rw [← hrs]
        exact hkc1
      · exact hwcle
      · exact hpastC
      · exact hnextC
      · rw [← hrs]
        show (updateStep X.cfg s).store = _
        rw [updateStep_store, hstore]
      · rw [← hrs]
        show (updateStep X.cfg s).timeC = _
        rw [updateStep_timeC, htimeC]

/-- Characterisation of the early consensus return (source line 99): it can
only happen when `nu = 0`; richness, time and `time_c` are truncated to the
filled slots (the just-written richness slot holding `1` included), while
the abundance table keeps its full allocated width. -/
lemma stepBody_inr_spec (X : Ctx) (_hX : CtxOk X) (t : ℕ) (s : SimState) (res : VMResult)
    (hInv : LoopInv X t s) (heq : stepBody X.cfg t s = Sum.inr res) :
    res.early = true ∧ X.nu = 0 ∧
    res.store.length = X.lstepsC.length + 1 ∧
    res.richness.length = res.kOut ∧ res.time.length = res.kOut ∧
    res.timeC.length = res.kcOut ∧
    res.richness.getLastD 0 = 1 ∧
    res.kOut ≤ X.lsteps.length ∧ res.kcOut ≤ X.lstepsC.length ∧
    2 ≤ res.kOut ∧
    (∃ wcx, res.kcOut = wcx + 1 ∧
      res.store = X.counts0 :: (storeTraj X.S X.J X.nu X.ic0 X.rin X.lstepsC wcx ++
        List.replicate (X.lstepsC.length - wcx) (List.replicate X.S 0))) := by
  obtain ⟨ht, hops, hrng, ⟨w, hk, hwle, hpast, hnext, hdisj⟩,
    ⟨wc, hkc, hwcle, hpastC, hnextC, hstore, htimeC⟩⟩ := hInv
  have hk1 : (updateStep X.cfg s).k = w + 1 := by rw [updateStep_k, hk]
  have hkc1 : (updateStep X.cfg s).kc = wc + 1 := by rw [updateStep_kc, hkc]
  unfold stepBody at heq
  cases hrs : richStep X.cfg t (updateStep X.cfg s) with
  | inl s1' =>
    rw [hrs] at heq
    simp at heq
  | inr res' =>
    rw [hrs] at heq
    have hres : res' = res := by simpa using heq
    subst hres
    unfold richStep at hrs
    by_cases hG : (updateStep X.cfg s).k < X.cfg.lsteps.length ∧
        (t : ℤ) = X.cfg.lsteps.getD ((updateStep X.cfg s).k - 1) 0
    · rw [if_pos hG] at hrs
      by_cases hE : X.cfg.nu = 0 ∧ (updateStep X.cfg s).opinions.dedup.length = 1
      · rw [if_pos hE] at hrs
        rw [Sum.inr.injEq] at hrs
        subst hrs
        have hG1 : w + 1 < X.lsteps.length := by
          have h := hG.1
          rwa [hk1, Ctx_cfg_lsteps] at h
        rcases hdisj with ⟨hrich, htime, _⟩ | ⟨hlenB, _, _⟩
        swap
        · exact absurd hlenB (by omega)
        have hrep : X.lsteps.length - w = (X.lsteps.length - (w + 1)) + 1 := by omega
        have hrtake : ((updateStep X.cfg s).richness.set ((updateStep X.cfg s).k)
            ((updateStep X.cfg s).opinions.dedup.length)).take ((updateStep X.cfg s).k + 1) =
            X.r0 :: (richTraj X.S X.J X.nu X.ic0 X.rin X.lsteps w ++
              [(updateStep X.cfg s).opinions.dedup.length]) := by
          rw [updateStep_richness, hrich, hk1, hrep,
            set_cons_traj2 X.r0 _ _ _ _ w (richTraj_length _ _ _ _ _ _ _),
            List.append_assoc, List.singleton_append,
            show w + 1 + 1 = (richTraj X.S X.J X.nu X.ic0 X.rin X.lsteps w).length + 2 by
              simp]
          exact take_cons_traj _ _ _ _
        have httake : ((updateStep X.cfg s).time.set ((updateStep X.cfg s).k)
            ((t : ℚ) / (X.cfg.J : ℚ))).take ((updateStep X.cfg s).k + 1) =
            (0 : ℚ) :: (timeTraj X.J X.lsteps w ++ [(t : ℚ) / (X.cfg.J : ℚ)]) := by
          rw [updateStep_time, htime, hk1, hrep,
            set_cons_traj2 (0 : ℚ) _ _ _ _ w (timeTraj_length _ _ _),
            List.append_assoc, List.singleton_append,
            show w + 1 + 1 = (timeTraj X.J X.lsteps w).length + 2 by simp]
          exact take_cons_traj _ _ _ _
        have hctake : (updateStep X.cfg s).timeC.take ((updateStep X.cfg s).kc) =
            (0 : ℚ) :: timeTraj X.J X.lstepsC wc := by
          rw [updateStep_timeC, htimeC, hkc1,
            show wc + 1 = (timeTraj X.J X.lstepsC wc).length + 1 by simp]
          exact take_cons_left _ _ _
        refine ⟨rfl, hE.1, ?_, ?_, ?_, ?_, ?_, ?_, ?_, ?_, ?_⟩
        · try dsimp only
          rw [updateStep_store, hstore]
          simp
          omega
        · try dsimp only
          rw [hrtake, hk1]
          simp
        · try dsimp only
          rw [httake, hk1]
          simp
        · try dsimp only
          rw [hctake, hkc1]
          simp
        · try dsimp only
          rw [hrtake, hE.2, ← List.cons_append,
            getLastD_append_right _ _ (by simp)]
          rfl
        · try dsimp only
          rw [hk1]
          omega
        · try dsimp only
          rw [hkc1]
          omega
        · try dsimp only
          rw [hk1]
          omega
        · refine ⟨wc, ?_, ?_⟩
          · try dsimp only
            rw [hkc1]
          · try dsimp only
            rw [updateStep_store, hstore]
      · rw [if_neg hE] at hrs
        simp at hrs
    · rw [if_neg hG] at hrs
      simp at hrs

/-- Running the loop from an invariant state without early exit lands in an
invariant state at time `t + rem` through the normal return. -/
lemma loop_inv (X : Ctx) (hX : CtxOk X) : ∀ (rem t : ℕ) (s : SimState),
    LoopInv X t s → (loop X.cfg t rem s).early = false →
    ∃ s', loop X.cfg t rem s = finalize s' ∧ LoopInv X (t + rem) s' := by
  intro rem
  induction rem with
  | zero =>
    intro t s hInv _
    exact ⟨s, rfl, by simpa using hInv⟩
  | succ m ih =>
    intro t s hInv hearly
    cases hsb : stepBody X.cfg t s with
    | inr res =>
      have hl : loop X.cfg t (m + 1) s = res := by rw [loop_succ, hsb]
      rw [hl] at hearly
      have hspec := stepBody_inr_spec X hX t s res hInv hsb
      rw [hspec.1] at hearly
      exact absurd hearly (by simp)
    | inl s1 =>
      have hl : loop X.cfg t (m + 1) s = loop X.cfg (t + 1) m s1 := by
        rw [loop_succ, hsb]
      rw [hl] at hearly ⊢
      obtain ⟨s', he, hi⟩ := ih (t + 1) s1 (stepBody_inv X hX t s s1 hInv hsb) hearly
      refine ⟨s', he, ?_⟩
      rw [show t + (m + 1) = (t + 1) + m by omega]
      exact hi

/-- A run that exits early satisfies the early-return shape facts. -/
lemma loop_early (X : Ctx) (hX : CtxOk X) : ∀ (rem t : ℕ) (s : SimState),
    LoopInv X t s → (loop X.cfg t rem s).early = true →
    (loop X.cfg t rem s).store.length = X.lstepsC.length + 1 ∧
    (loop X.cfg t rem s).richness.length = (loop X.cfg t rem s).kOut ∧
    (loop X.cfg t rem s).time.length = (loop X.cfg t rem s).kOut ∧
    (loop X.cfg t rem s).timeC.length = (loop X.cfg t rem s).kcOut ∧
    (loop X.cfg t rem s).richness.getLastD 0 = 1 ∧
    (loop X.cfg t rem s).kOut ≤ X.lsteps.length ∧
    (loop X.cfg t rem s).kcOut ≤ X.lstepsC.length ∧ X.nu = 0 ∧
    2 ≤ (loop X.cfg t rem s).kOut ∧
    (∃ wcx, (loop X.cfg t rem s).kcOut = wcx + 1 ∧
      (loop X.cfg t rem s).store = X.counts0 ::
        (storeTraj X.S X.J X.nu X.ic0 X.rin X.lstepsC wcx ++
          List.replicate (X.lstepsC.length - wcx) (List.replicate X.S 0))) := by
  intro rem
  induction rem with
  | zero =>
    intro t s _ hearly
    have hl : loop X.cfg t 0 s = finalize s := rfl
    rw [hl] at hearly
    exact absurd hearly (by simp [finalize])
  | succ m ih =>
    intro t s hInv hearly
    cases hsb : stepBody X.cfg t s with
    | inr res =>
      have hl : loop X.cfg t (m + 1) s = res := by rw [loop_succ, hsb]
      rw [hl] at hearly ⊢
      obtain ⟨_, hnu, h3, h4, h5, h6, h7, h8, h9, h10, h11⟩ :=
        stepBody_inr_spec X hX t s res hInv hsb
      exact ⟨h3, h4, h5, h6, h7, h8, h9, hnu, h10, h11⟩
    | inl s1 =>
      have hl : loop X.cfg t (m + 1) s = loop X.cfg (t + 1) m s1 := by
        rw [loop_succ, hsb]
      rw [hl] at hearly ⊢
      exact ih (t + 1) s1 (stepBody_inv X hX t s s1 hInv hsb) hearly

/-- A valid nonempty initial condition yields a positive initial richness. -/
lemma tallyZ_filter_pos (S : ℕ) (l : List ℕ) (hne : l ≠ [])
    (hlab : ∀ x ∈ l, x < S) :
    1 ≤ ((tallyZ S l).filter fun x => 0 < x).length := by
  obtain ⟨a, l', rfl⟩ := List.exists_cons_of_ne_nil hne
  have ha : a < S := hlab a (List.mem_cons_self a l')
  have hcount : (0 : ℤ) < ((a :: l').count a : ℕ) := by
    have h : 0 < (a :: l').count a := by
      rw [List.count_pos_iff]
      exact List.mem_cons_self a l'
    exact_mod_cast h
  have hmem : (((a :: l').count a : ℕ) : ℤ) ∈ tallyZ S (a :: l') := by
    simp only [tallyZ, List.mem_map, List.mem_range]
    exact ⟨a, ha, rfl⟩
  have hmemf : (((a :: l').count a : ℕ) : ℤ) ∈
      (tallyZ S (a :: l')).filter fun x => 0 < x := by
    rw [List.mem_filter]
    exact ⟨hmem, by simp [hcount]⟩
  have hpos := List.length_pos.mpr (List.ne_nil_of_mem hmemf)
  omega

/-- The state built at source lines 69-80 satisfies the invariant at the
entry of iteration `t = 1`. -/
lemma init_inv (X : Ctx) (hX : CtxOk X) (p : List ℕ × Rng) (counts : List ℤ)
    (ic : Option (List ℕ)) (cts : Option (List ℤ))
    (hp1 : p.1 = X.ic0) (hp2 : p.2 = X.rin)
    (hcounts : counts = X.counts0)
    (hr0 : (counts.filter fun x => 0 < x).length = X.r0) :
    LoopInv X 1 (initState X.S X.lsteps X.lstepsC p counts ic cts) := by
  refine ⟨le_refl 1, ?_, ?_, ?_, ?_⟩
  · show p.1 = (X.opAt 0).1
    rw [hp1]
    rfl
  · show p.2 = (X.opAt 0).2
    rw [hp2]
    rfl
  · refine ⟨0, rfl, hX.hlen, fun j hj => absurd hj (Nat.not_lt_zero j), ?_, ?_⟩
    · intro _
      have hmem : X.lsteps.getD 0 0 ∈ X.lsteps := by
        rw [List.getD_eq_getElem _ _ (by omega)]
        exact List.getElem_mem (by omega)
      exact (hX.hbound _ hmem).1
    · left
      refine ⟨?_, ?_, fun _ => rfl⟩
      · show (counts.filter fun x => 0 < x).length ::
            List.replicate X.lsteps.length 0 = _
        rw [hr0]
        simp [richTraj]
      · show (0 : ℚ) :: List.replicate X.lsteps.length 0 = _
        simp [timeTraj]
  · refine ⟨0, rfl, hX.hlenC, fun j hj => absurd hj (Nat.not_lt_zero j), ?_, ?_, ?_⟩
    · intro _
      have hmem : X.lstepsC.getD 0 0 ∈ X.lstepsC := by
        rw [List.getD_eq_getElem _ _ (by omega)]
        exact List.getElem_mem (by omega)
      exact (hX.hboundC _ hmem).1
    · show counts :: List.replicate X.lstepsC.length (List.replicate X.S 0) = _
      rw [hcounts]
      simp [storeTraj]
    · show (0 : ℚ) :: List.replicate X.lstepsC.length 0 = _
      simp [timeTraj]

/-- Extracting the final outputs from the invariant after the last
iteration: the loop has consumed every schedule entry except the final one,
the trailing richness slot has been dropped, and the final abundance column
is still all-zero. -/
lemma final_extract (X : Ctx) (hX : CtxOk X) (hT : 1 ≤ X.T) (s' : SimState)
    (hInv : LoopInv X (1 + X.T * X.J) s') :
    s'.richness = X.r0 ::
      richTraj X.S X.J X.nu X.ic0 X.rin X.lsteps (X.lsteps.length - 1) ∧
    s'.time = 0 :: timeTraj X.J X.lsteps (X.lsteps.length - 1) ∧
    s'.k = X.lsteps.length ∧
    s'.store = X.counts0 ::
      (storeTraj X.S X.J X.nu X.ic0 X.rin X.lstepsC (X.lstepsC.length - 1) ++
        [List.replicate X.S 0]) ∧
    s'.timeC = 0 ::
      (timeTraj X.J X.lstepsC (X.lstepsC.length - 1) ++ [(0 : ℚ)]) ∧
    s'.kc = X.lstepsC.length := by
  obtain ⟨ht, hops, hrng, ⟨w, hk, hwle, hpast, hnext, hdisj⟩,
    ⟨wc, hkc, hwcle, hpastC, hnextC, hstore, htimeC⟩⟩ := hInv
  have hJ := hX.hJ
  have hTJ : 1 ≤ X.T * X.J := Nat.mul_pos hT hJ
  have hmul : (X.J : ℤ) * X.T = ((X.T * X.J : ℕ) : ℤ) := by
    push_cast
    ring
  have hwe : w + 1 = X.lsteps.length := by
    by_contra hne
    have hlt : w + 1 < X.lsteps.length := by omega
    have hle := hnext hlt
    have hmem : X.lsteps.getD w 0 ∈ X.lsteps := by
      rw [List.getD_eq_getElem _ _ (by omega)]
      exact List.getElem_mem (by omega)
    have hub := (hX.hbound _ hmem).2
    push_cast at hle
    omega
  have hwce : wc + 1 = X.lstepsC.length := by
    by_contra hne
    have hlt : wc + 1 < X.lstepsC.length := by omega
    have hle := hnextC hlt
    have hmem : X.lstepsC.getD wc 0 ∈ X.lstepsC := by
      rw [List.getD_eq_getElem _ _ (by omega)]
      exact List.getElem_mem (by omega)
    have hub := (hX.hboundC _ hmem).2
    push_cast at hle
    omega
  have hw : w = X.lsteps.length - 1 := by omega
  have hwc : wc = X.lstepsC.length - 1 := by omega
  rcases hdisj with ⟨_, _, hside⟩ | ⟨_, hrichB, htimeB⟩
  · have h1 := hside hwe
    omega
  · refine ⟨?_, ?_, by omega, ?_, ?_, by omega⟩
    · rw [hrichB, hw]
    · rw [htimeB, hw]
    · rw [hstore, hwc, show X.lstepsC.length - (X.lstepsC.length - 1) = 1 by omega,
        List.replicate_one]
    · rw [htimeC, hwc, show X.lstepsC.length - (X.lstepsC.length - 1) = 1 by omega,
        List.replicate_one]

/-- The run context of a `voter_model` call with a valid initial condition
is well formed. -/
lemma vmCtxOk (S J T : ℕ) (nu : ℚ) (n nc : ℕ) (l : List ℕ) (rng : Rng)
    (hJ : 1 ≤ J) (hT : 1 ≤ T) (hn : 1 ≤ n) (hnc : 1 ≤ nc)
    (hlen : l.length = J) (hlab : ∀ x ∈ l, x < S) :
    CtxOk (vmCtx S J T nu n nc l rng) := by
  have hne : l ≠ [] := by
    intro h
    rw [h] at hlen
    simp at hlen
    omega
  refine ⟨hJ, hlen, tallyZ_filter_pos S l hne hlab, ?_, ?_,
    log_steps_sorted J T n, log_steps_sorted J T nc, ?_, ?_⟩
  · exact List.length_pos.mpr (log_steps_ne_nil J T hn)
  · exact List.length_pos.mpr (log_steps_ne_nil J T hnc)
  · intro x hx
    have hb := log_steps_mem_bounds n hJ hT x hx
    have h1 : (1 : ℤ) ≤ (J : ℤ) := by exact_mod_cast hJ
    exact ⟨by omega, hb.2⟩
  · intro x hx
    have hb := log_steps_mem_bounds nc hJ hT x hx
    have h1 : (1 : ℤ) ≤ (J : ℤ) := by exact_mod_cast hJ
    exact ⟨by omega, hb.2⟩

/-- A `voter_model` call with a supplied initial condition and derived
counts is the loop run from the corresponding initial state. -/
lemma voter_model_eq_loop (S J T : ℕ) (nu : ℚ) (n nc : ℕ) (l : List ℕ) (rng : Rng) :
    voter_model S J T nu n nc (some l) none rng =
      loop (vmCtx S J T nu n nc l rng).cfg 1 (T * J)
        (initState S (log_steps J T n) (log_steps J T nc) (l, rng) (tallyZ S l)
          (some l) none) := rfl

/-- Every column of the filled part of an abundance table of the invariant
shape is a tally: it is entrywise nonnegative and sums to `J`. -/
lemma cons_traj_getD_sum (S J : ℕ) (nu : ℚ) (l : List ℕ) (rng : Rng) (steps : List ℤ)
    (hJ : 1 ≤ J) (hlen : l.length = J) (hlab : ∀ x ∈ l, x < S)
    (w : ℕ) (rest : List (List ℤ)) (j : ℕ) (hj : j < w + 1) :
    ((((tallyZ S l) :: (storeTraj S J nu l rng steps w ++ rest)).getD j []).sum = (J : ℤ)) ∧
    (∀ x ∈ ((tallyZ S l) :: (storeTraj S J nu l rng steps w ++ rest)).getD j [], 0 ≤ x) := by
  have hS : 1 ≤ S := by
    have hne : l ≠ [] := by
      intro h
      rw [h] at hlen
      simp at hlen
      omega
    obtain ⟨a, l', rfl⟩ := List.exists_cons_of_ne_nil hne
    have := hlab a (List.mem_cons_self _ _)
    omega
  cases j with
  | zero =>
    constructor
    · show (tallyZ S l).sum = (J : ℤ)
      rw [tallyZ_sum S l hlab, hlen]
    · intro x hx
      exact tallyZ_nonneg S l x hx
  | succ i =>
    have hi : i < w := by omega
    have hgd : (((tallyZ S l) :: (storeTraj S J nu l rng steps w ++ rest)).getD (i + 1) []) =
        (storeTraj S J nu l rng steps w).getD i [] := by
      rw [List.getD_cons_succ, List.getD_append]
      rw [storeTraj_length]
      exact hi
    have hcol : (storeTraj S J nu l rng steps w).getD i [] =
        tallyZ S ((opinionsAfter S J nu l rng ((steps.getD i 0).toNat)).1) := by
      rw [List.getD_eq_getElem _ _ (by rw [storeTraj_length]; exact hi)]
      simp [storeTraj]
    obtain ⟨hlab', hlen'⟩ :=
      opinionsAfter_labels S J nu l rng hS hJ hlen hlab ((steps.getD i 0).toNat)
    rw [hgd, hcol]
    constructor
    · rw [tallyZ_sum _ _ hlab', hlen']
    · intro x hx
      exact tallyZ_nonneg _ _ x hx

/-! ## C1-C4: the recording loop -/

/-- C1 (amended): absent early consensus termination, `voter_model` records
a snapshot for every log-schedule entry EXCEPT THE LAST of each schedule:
slot `j + 1` of richness/time holds the distinct-label count at step
`log_steps[j]` and generation time `log_steps[j] / J` for
`j < len - 1`, and likewise for the abundance columns; the final schedule
entry `J*T` is never recorded — the recording guard `k < len(log_steps)`
(source lines 94 and 103) stops one entry short, the trailing richness slot
is dropped by lines 113-115, and the final abundance column stays all
zero. -/
theorem C1_snapshots_except_last (S J T n nc : ℕ) (nu : ℚ) (l : List ℕ) (rng : Rng)
    (hJ : 1 ≤ J) (hT : 1 ≤ T) (hn : 1 ≤ n) (hnc : 1 ≤ nc)
    (hlen : l.length = J) (hlab : ∀ x ∈ l, x < S)
    (hearly : (voter_model S J T nu n nc (some l) none rng).early = false) :
    (voter_model S J T nu n nc (some l) none rng).richness =
      ((tallyZ S l).filter fun x => 0 < x).length ::
        richTraj S J nu l rng (log_steps J T n) ((log_steps J T n).length - 1) ∧
    (voter_model S J T nu n nc (some l) none rng).time =
      0 :: timeTraj J (log_steps J T n) ((log_steps J T n).length - 1) ∧
    (voter_model S J T nu n nc (some l) none rng).store =
      tallyZ S l :: (storeTraj S J nu l rng (log_steps J T nc)
        ((log_steps J T nc).length - 1) ++ [List.replicate S 0]) ∧
    (voter_model S J T nu n nc (some l) none rng).timeC =
      0 :: (timeTraj J (log_steps J T nc) ((log_steps J T nc).length - 1) ++ [(0 : ℚ)]) ∧
    (voter_model S J T nu n nc (some l) none rng).kOut = (log_steps J T n).length ∧
    (voter_model S J T nu n nc (some l) none rng).kcOut = (log_steps J T nc).length := by
  have hX := vmCtxOk S J T nu n nc l rng hJ hT hn hnc hlen hlab
  have hinit := init_inv (vmCtx S J T nu n nc l rng) hX (l, rng) (tallyZ S l)
    (some l) none rfl rfl rfl rfl
  rw [voter_model_eq_loop] at hearly
  obtain ⟨s', heq, hinv⟩ := loop_inv _ hX (T * J) 1 _ hinit (by exact hearly)
  have heq2 : voter_model S J T nu n nc (some l) none rng = finalize s' := by
    rw [voter_model_eq_loop]
    exact heq
  rw [heq2]
  obtain ⟨h1, h2, h3, h4, h5, h6⟩ := final_extract _ hX hT s' hinv
  exact ⟨h1, h2, h4, h5, h3, h6⟩

lemma c1_run_early_false :
    (voter_model 2 1 10 1 2 2 (some [0]) none rng0).early = false := by
  rw [voter_model_eq_simulate, log_steps_1_10_2]
  simp +decide [simulate, initState, loop, stepBody, updateStep, drawStep, richStep,
    abundanceStep, truncStep, finalize, Rng.integers, Rng.random, tallyZ, rng0]

theorem C1_witness :
    (voter_model 2 1 10 1 2 2 (some [0]) none rng0).early = false ∧
    ((voter_model 2 1 10 1 2 2 (some [0]) none rng0).richness =
      ((tallyZ 2 [0]).filter fun x => 0 < x).length ::
        richTraj 2 1 1 [0] rng0 (log_steps 1 10 2) ((log_steps 1 10 2).length - 1) ∧
    (voter_model 2 1 10 1 2 2 (some [0]) none rng0).time =
      0 :: timeTraj 1 (log_steps 1 10 2) ((log_steps 1 10 2).length - 1) ∧
    (voter_model 2 1 10 1 2 2 (some [0]) none rng0).store =
      tallyZ 2 [0] :: (storeTraj 2 1 1 [0] rng0 (log_steps 1 10 2)
        ((log_steps 1 10 2).length - 1) ++ [List.replicate 2 0]) ∧
    (voter_model 2 1 10 1 2 2 (some [0]) none rng0).timeC =
      0 :: (timeTraj 1 (log_steps 1 10 2) ((log_steps 1 10 2).length - 1) ++ [(0 : ℚ)]) ∧
    (voter_model 2 1 10 1 2 2 (some [0]) none rng0).kOut = (log_steps 1 10 2).length ∧
    (voter_model 2 1 10 1 2 2 (some [0]) none rng0).kcOut = (log_steps 1 10 2).length) :=
  ⟨c1_run_early_false,
   C1_snapshots_except_last 2 1 10 2 2 1 [0] rng0 (by decide) (by decide) (by decide)
     (by decide) (by decide) (by decide) c1_run_early_false⟩

/-- C1 counterexample: the claim as stated says that EVERY schedule entry,
in particular the final entry `t = J*T`, gets a filled output slot.  In the
run below (`J = 1`, `T = 10`, schedules `[1, 10]`, no early exit) the final
entry `10` is never recorded: the returned generation times are `[0, 1]`
and no slot carries the generation time `10 = (J*T)/J`. -/
theorem C1_counterexample :
    (voter_model 2 1 10 1 2 2 (some [0]) none rng0).early = false ∧
    log_steps 1 10 2 = [1, 10] ∧
    (voter_model 2 1 10 1 2 2 (some [0]) none rng0).time = [0, 1] ∧
    ¬((10 : ℚ) ∈ (voter_model 2 1 10 1 2 2 (some [0]) none rng0).time) := by
  refine ⟨c1_run_early_false, log_steps_1_10_2, ?_, ?_⟩ <;>
  · rw [voter_model_eq_simulate, log_steps_1_10_2]
    simp +decide [simulate, initState, loop, stepBody, updateStep, drawStep, richStep,
      abundanceStep, truncStep, finalize, Rng.integers, Rng.random, tallyZ, rng0]

/-- C3 (amended): with `num_log_steps = 1` the richness schedule is exactly
`[J]`, but the returned richness series has length 1, not 2: it contains
only the initial state.  The recording guard `k < len(log_steps)` (line 94)
is `1 < 1`, so the single scheduled snapshot at step `J` is never taken,
and the trailing zero slot is dropped by lines 113-115. -/
theorem C3_single_log_step (S J T nc : ℕ) (nu : ℚ) (l : List ℕ) (rng : Rng)
    (hJ : 1 ≤ J) (hT : 1 ≤ T) (hnc : 1 ≤ nc)
    (hlen : l.length = J) (hlab : ∀ x ∈ l, x < S) :
    log_steps J T 1 = [(J : ℤ)] ∧
    (voter_model S J T nu 1 nc (some l) none rng).richness.length = 1 := by
  have hX := vmCtxOk S J T nu 1 nc l rng hJ hT (le_refl 1) hnc hlen hlab
  have hinit := init_inv (vmCtx S J T nu 1 nc l rng) hX (l, rng) (tallyZ S l)
    (some l) none rfl rfl rfl rfl
  have hlen1 : (log_steps J T 1).length = 1 := by
    rw [log_steps_one J T hJ]
    rfl
  refine ⟨log_steps_one J T hJ, ?_⟩
  have hearly : (voter_model S J T nu 1 nc (some l) none rng).early = false := by
    cases he : (voter_model S J T nu 1 nc (some l) none rng).early
    · rfl
    · exfalso
      rw [voter_model_eq_loop] at he
      obtain ⟨_, _, _, _, _, h6, _, _, h9, _⟩ :=
        loop_early _ hX (T * J) 1 _ hinit (by exact he)
      have hv : (vmCtx S J T nu 1 nc l rng).lsteps.length = 1 := hlen1
      omega
  rw [voter_model_eq_loop] at hearly
  obtain ⟨s', heq, hinv⟩ := loop_inv _ hX (T * J) 1 _ hinit (by exact hearly)
  have heq2 : voter_model S J T nu 1 nc (some l) none rng = finalize s' := by
    rw [voter_model_eq_loop]
    exact heq
  rw [heq2]
  obtain ⟨h1, _, _, _, _, _⟩ := final_extract _ hX hT s' hinv
  show s'.richness.length = 1
  rw [h1]
  simp only [List.length_cons, richTraj_length]
  have hv : (vmCtx S J T nu 1 nc l rng).lsteps.length = 1 := hlen1
  omega

theorem C3_witness :
    1 ≤ 1 ∧ 1 ≤ 10 ∧ ([0] : List ℕ).length = 1 ∧ (∀ x ∈ ([0] : List ℕ), x < 2) ∧
    (log_steps 1 10 1 = [((1 : ℕ) : ℤ)] ∧
     (voter_model 2 1 10 1 1 1 (some [0]) none rng0).richness.length = 1) :=
  ⟨le_refl 1, by omega, by decide, by decide,
   C3_single_log_step 2 1 10 1 1 [0] rng0 (by decide) (by decide) (by decide)
     (by decide) (by decide)⟩

/-- C3 counterexample: the claim says the returned richness series has
length 2 (initial state plus one snapshot at step `J`); in the run below
with `num_log_steps = 1` the returned series has length 1. -/
theorem C3_counterexample :
    log_steps 1 10 1 = [1] ∧
    (voter_model 2 1 10 1 1 1 (some [0]) none rng0).richness.length = 1 ∧
    ¬((voter_model 2 1 10 1 1 1 (some [0]) none rng0).richness.length = 2) := by
  have hs : log_steps 1 10 1 = [1] := by
    have h := log_steps_one 1 10 (le_refl 1)
    simpa using h
  refine ⟨hs, ?_, ?_⟩ <;>
  · rw [voter_model_eq_simulate, hs]
    simp +decide [simulate, initState, loop, stepBody, updateStep, drawStep, richStep,
      abundanceStep, truncStep, finalize, Rng.integers, Rng.random, tallyZ, rng0]

lemma c2_run_early_true :
    (voter_model 2 1 10 0 2 2 (some [0]) none rng0).early = true := by
  rw [voter_model_eq_simulate, log_steps_1_10_2]
  simp +decide [simulate, initState, loop, stepBody, updateStep, drawStep, richStep,
    abundanceStep, truncStep, finalize, Rng.integers, Rng.random, tallyZ, rng0]

/-- C2 (amended): when `nu = 0` and a scheduled richness checkpoint records
richness 1, `voter_model` terminates immediately and returns richness, time
and `time_c` truncated to the slots filled so far (the just-written
richness slot, holding `1`, included) — but the abundance table is NOT
truncated: it is returned at its full allocated width
`len(log_steps_count) + 1` (source line 99 returns `opinion_counts_store`
whole). -/
theorem C2_early_truncation (S J T n nc : ℕ) (nu : ℚ) (l : List ℕ) (rng : Rng)
    (hJ : 1 ≤ J) (hT : 1 ≤ T) (hn : 1 ≤ n) (hnc : 1 ≤ nc)
    (hlen : l.length = J) (hlab : ∀ x ∈ l, x < S) (_hnu : nu = 0)
    (hearly : (voter_model S J T nu n nc (some l) none rng).early = true) :
    (voter_model S J T nu n nc (some l) none rng).richness.length =
      (voter_model S J T nu n nc (some l) none rng).kOut ∧
    (voter_model S J T nu n nc (some l) none rng).time.length =
      (voter_model S J T nu n nc (some l) none rng).kOut ∧
    (voter_model S J T nu n nc (some l) none rng).timeC.length =
      (voter_model S J T nu n nc (some l) none rng).kcOut ∧
    (voter_model S J T nu n nc (some l) none rng).richness.getLastD 0 = 1 ∧
    (voter_model S J T nu n nc (some l) none rng).kOut ≤ (log_steps J T n).length ∧
    (voter_model S J T nu n nc (some l) none rng).kcOut ≤ (log_steps J T nc).length ∧
    (voter_model S J T nu n nc (some l) none rng).store.length =
      (log_steps J T nc).length + 1 := by
  have hX := vmCtxOk S J T nu n nc l rng hJ hT hn hnc hlen hlab
  have hinit := init_inv (vmCtx S J T nu n nc l rng) hX (l, rng) (tallyZ S l)
    (some l) none rfl rfl rfl rfl
  rw [voter_model_eq_loop] at hearly
  obtain ⟨h1, h2, h3, h4, h5, h6, h7, _, _, _⟩ :=
    loop_early _ hX (T * J) 1 _ hinit (by exact hearly)
  exact ⟨h2, h3, h4, h5, h6, h7, h1⟩

theorem C2_witness :
    (0 : ℚ) = 0 ∧
    (voter_model 2 1 10 0 2 2 (some [0]) none rng0).early = true ∧
    ((voter_model 2 1 10 0 2 2 (some [0]) none rng0).richness.length =
      (voter_model 2 1 10 0 2 2 (some [0]) none rng0).kOut ∧
    (voter_model 2 1 10 0 2 2 (some [0]) none rng0).time.length =
      (voter_model 2 1 10 0 2 2 (some [0]) none rng0).kOut ∧
    (voter_model 2 1 10 0 2 2 (some [0]) none rng0).timeC.length =
      (voter_model 2 1 10 0 2 2 (some [0]) none rng0).kcOut ∧
    (voter_model 2 1 10 0 2 2 (some [0]) none rng0).richness.getLastD 0 = 1 ∧
    (voter_model 2 1 10 0 2 2 (some [0]) none rng0).kOut ≤ (log_steps 1 10 2).length ∧
    (voter_model 2 1 10 0 2 2 (some [0]) none rng0).kcOut ≤ (log_steps 1 10 2).length ∧
    (voter_model 2 1 10 0 2 2 (some [0]) none rng0).store.length =
      (log_steps 1 10 2).length + 1) :=
  ⟨rfl, c2_run_early_true,
   C2_early_truncation 2 1 10 2 2 0 [0] rng0 (by decide) (by decide) (by decide)
     (by decide) (by decide) (by decide) rfl c2_run_early_true⟩

/-- C2 counterexample: the claim says the returned abundance table contains
only the columns written so far.  In the early-terminating run below only
one abundance slot was ever written (`kcOut = 1`, `time_c = [0]`), yet the
returned abundance table has 3 columns — its full allocated width. -/
theorem C2_counterexample :
    (voter_model 2 1 10 0 2 2 (some [0]) none rng0).early = true ∧
    (voter_model 2 1 10 0 2 2 (some [0]) none rng0).kcOut = 1 ∧
    (voter_model 2 1 10 0 2 2 (some [0]) none rng0).timeC = [0] ∧
    (voter_model 2 1 10 0 2 2 (some [0]) none rng0).store.length = 3 ∧
    ¬((voter_model 2 1 10 0 2 2 (some [0]) none rng0).store.length =
      (voter_model 2 1 10 0 2 2 (some [0]) none rng0).kcOut) := by
  refine ⟨c2_run_early_true, ?_, ?_, ?_, ?_⟩ <;>
  · rw [voter_model_eq_simulate, log_steps_1_10_2]
    simp +decide [simulate, initState, loop, stepBody, updateStep, drawStep, richStep,
      abundanceStep, truncStep, finalize, Rng.integers, Rng.random, tallyZ, rng0]

/-- C4 (amended): when the opinion-counts argument is omitted (so the
counts are derived by tallying the initial condition, source lines 59-62),
every abundance slot actually written — slot 0 and every scheduled snapshot,
on both the normal and the early-consensus return path — holds a count
vector with nonnegative entries summing to exactly `J`. -/
theorem C4_written_columns_sum (S J T n nc : ℕ) (nu : ℚ) (l : List ℕ) (rng : Rng)
    (hJ : 1 ≤ J) (hT : 1 ≤ T) (hn : 1 ≤ n) (hnc : 1 ≤ nc)
    (hlen : l.length = J) (hlab : ∀ x ∈ l, x < S) :
    ∀ j < (voter_model S J T nu n nc (some l) none rng).kcOut,
      (((voter_model S J T nu n nc (some l) none rng).store.getD j []).sum = (J : ℤ)) ∧
      (∀ x ∈ (voter_model S J T nu n nc (some l) none rng).store.getD j [], 0 ≤ x) := by
  have hX := vmCtxOk S J T nu n nc l rng hJ hT hn hnc hlen hlab
  have hinit := init_inv (vmCtx S J T nu n nc l rng) hX (l, rng) (tallyZ S l)
    (some l) none rfl rfl rfl rfl
  intro j hj
  cases he : (voter_model S J T nu n nc (some l) none rng).early
  · -- normal completion: every column except the final all-zero one is filled
    rw [voter_model_eq_loop] at he
    obtain ⟨s', heq, hinv⟩ := loop_inv _ hX (T * J) 1 _ hinit (by exact he)
    have heq2 : voter_model S J T nu n nc (some l) none rng = finalize s' := by
      rw [voter_model_eq_loop]
      exact heq
    obtain ⟨_, _, _, h4, _, h6⟩ := final_extract _ hX hT s' hinv
    have hst : (voter_model S J T nu n nc (some l) none rng).store =
        tallyZ S l :: (storeTraj S J nu l rng (log_steps J T nc)
          ((log_steps J T nc).length - 1) ++ [List.replicate S 0]) := by
      rw [heq2]
      exact h4
    have hjc : j < ((log_steps J T nc).length - 1) + 1 := by
      rw [heq2] at hj
      have hj2 : j < s'.kc := hj
      rw [h6] at hj2
      have hv : (vmCtx S J T nu n nc l rng).lstepsC.length =
          (log_steps J T nc).length := rfl
      have h9 := hX.hlenC
      have hv2 : 1 ≤ (log_steps J T nc).length := h9
      omega
    rw [hst]
    exact cons_traj_getD_sum S J nu l rng (log_steps J T nc) hJ hlen hlab
      ((log_steps J T nc).length - 1) [List.replicate S 0] j hjc
  · -- early consensus return: the store is kept whole, columns up to the
    -- exit index are filled
    rw [voter_model_eq_loop] at he
    obtain ⟨_, _, _, _, _, _, _, _, _, wcx, hkout, hstoref⟩ :=
      loop_early _ hX (T * J) 1 _ hinit (by exact he)
    have hst : (voter_model S J T nu n nc (some l) none rng).store =
        tallyZ S l :: (storeTraj S J nu l rng (log_steps J T nc) wcx ++
          List.replicate ((log_steps J T nc).length - wcx) (List.replicate S 0)) := by
      rw [voter_model_eq_loop]
      exact hstoref
    have hjw : j < wcx + 1 := by
      rw [← hkout]
      exact hj
    rw [hst]
    exact cons_traj_getD_sum S J nu l rng (log_steps J T nc) hJ hlen hlab wcx
      (List.replicate ((log_steps J T nc).length - wcx) (List.replicate S 0)) j hjw

theorem C4_witness :
    1 ≤ 1 ∧ 1 ≤ 10 ∧ ([0] : List ℕ).length = 1 ∧ (∀ x ∈ ([0] : List ℕ), x < 2) ∧
    (∀ j < (voter_model 2 1 10 1 2 2 (some [0]) none rng0).kcOut,
      (((voter_model 2 1 10 1 2 2 (some [0]) none rng0).store.getD j []).sum =
        ((1 : ℕ) : ℤ)) ∧
      (∀ x ∈ (voter_model 2 1 10 1 2 2 (some [0]) none rng0).store.getD j [], 0 ≤ x)) :=
  ⟨le_refl 1, by omega, by decide, by decide,
   C4_written_columns_sum 2 1 10 2 2 1 [0] rng0 (by decide) (by decide) (by decide)
     (by decide) (by decide) (by decide)⟩

/-- C4 counterexample: the claim quantifies over every run with a valid
initial condition, including runs where the caller supplies an
`opinion_counts` array.  The code stores the supplied counts at slot 0
without checking them (source line 76): below the initial condition `[0]`
is valid (`J = 1`, label `0 < S = 1`), the supplied counts are `[5]`, slot
0 is written (`kcOut ≥ 1`) and holds `[5]`, whose sum is `5 ≠ J = 1`. -/
theorem C4_counterexample :
    ([0] : List ℕ).length = 1 ∧ (∀ x ∈ ([0] : List ℕ), x < 1) ∧
    0 < (voter_model 1 1 1 0 1 1 (some [0]) (some [5]) rng0).kcOut ∧
    (voter_model 1 1 1 0 1 1 (some [0]) (some [5]) rng0).store.getD 0 [] = [5] ∧
    ¬(((voter_model 1 1 1 0 1 1 (some [0]) (some [5]) rng0).store.getD 0 []).sum =
      (1 : ℤ)) := by
  have hs : log_steps 1 1 1 = [1] := by
    have h := log_steps_one 1 1 (le_refl 1)
    simpa using h
  refine ⟨by decide, by decide, ?_, ?_, ?_⟩ <;>
  · rw [voter_model_eq_simulate, hs]
    simp +decide [simulate, initState, loop, stepBody, updateStep, drawStep, richStep,
      abundanceStep, truncStep, finalize, Rng.integers, Rng.random, tallyZ, rng0]
